import Mathlib

/-!
# Verification of the Mdfs (mana depth first search) proximity search

A shallow embedding of `src/mdfs.rs`: a budgeted depth-first search over
per-pair word proximities, driven by an iterative-deepening "mana" budget,
yielding ranked batches of document ids.

Modelling choices:
* `RoaringBitmap` becomes `Finset ℕ` (`DocSet`).
* `HashMap String (u8, RoaringBitmap)` (one word slot's variant map) becomes
  an association list `List (String × (ℕ × DocSet))`; iteration order is the
  list order (the Rust HashMap iterates in some fixed order for an unmodified
  map; all results proved here are order-insensitive).
* The store access `index.word_pair_proximity_docids.get(rtxn, &key)` becomes
  an abstract pure function `Store ε` from keys to `Except ε (Option DocSet)`:
  the read-only snapshot transaction means repeated lookups of the same key
  give the same answer, which a pure function captures; `ε` is the abstract
  store-access error type (`anyhow::Error`).
* The `union_cache : HashMap<(usize, u8), RoaringBitmap>` becomes an
  association list `Cache`, inserted into only when the key is vacant.
* u32 arithmetic: the unchecked subtraction `mana - nb_children` is modelled
  by wrapping subtraction `sub32`, the `as u8` cast of the minimum proximity
  by `% 256`, and `checked_sub(..).unwrap()` by `checked_sub` returning
  `Option` (the `none` case, where Rust panics, returns a default and is
  proved unreachable for calls satisfying the iterator's invariant).
* The `while` loop of `Iterator::next` and the repeated calls to `next`
  themselves are modelled with explicit fuel; running out of fuel is a
  distinguished outcome (`outOfFuel`), never confused with genuine
  exhaustion (`None`) or a store error.
-/

/-- Document id set (`RoaringBitmap`). -/
abbrev DocSet := Finset ℕ

/-- One word slot's variant map: word variant ↦ (typo distance, docids).
Models `HashMap<String, (u8, RoaringBitmap)>`. -/
abbrev VariantMap := List (String × (ℕ × DocSet))

/-- One entry of the `words` slice: `(HashMap<String,(u8,RoaringBitmap)>, RoaringBitmap)`
(variant map plus the slot's aggregate docids, the latter unused by this module). -/
abbrev Slot := VariantMap × DocSet

/-- The word-pair-proximity store: `(w1, w2, proximity) ↦ Option docids`,
possibly failing with a store-access error of type `ε`.  Models
`index.word_pair_proximity_docids.get(rtxn, _)` for the fixed read-only
transaction held by one iterator. -/
abbrev Store (ε : Type) := String → String → ℕ → Except ε (Option DocSet)

/-- The memoization cache `union_cache : HashMap<(usize, u8), RoaringBitmap>`,
keyed by (remaining slot count, proximity). -/
abbrev Cache := List ((ℕ × ℕ) × DocSet)

/-- Cache lookup (the `entry(..)` probe). -/
def cacheFind (c : Cache) (k : ℕ × ℕ) : Option DocSet :=
  (c.find? (fun e => e.1 = k)).map (·.2)

/-- Cache insertion, performed only on a vacant key (the `Vacant` arm). -/
def cacheInsert (c : Cache) (k : ℕ × ℕ) (v : DocSet) : Cache :=
  (k, v) :: c

/-- Wrapping u32 subtraction, for the unchecked `mana - nb_children`. -/
def sub32 (a b : ℕ) : ℕ :=
  (2 ^ 32 + a % 2 ^ 32 - b % 2 ^ 32) % 2 ^ 32

/-- `u32::checked_sub`. -/
def checked_sub (a b : ℕ) : Option ℕ :=
  if b ≤ a then some (a - b) else none

/-- `words_pair_combinations`: all pairs of a variant from `w1` and a variant
from `w2` whose per-variant docid sets are not disjoint. -/
def words_pair_combinations (w1 w2 : VariantMap) : List (String × String) :=
  w1.flatMap fun a =>
    w2.filterMap fun b =>
      if a.2.2 ∩ b.2.2 = ∅ then none else some (a.1, b.1)

/-- The `for (w1, w2) in pairs` union loop inside `mdfs_step`'s `Vacant` arm:
fold the store's docids for each pruned pair at this proximity into `acc`,
propagating the first store error. -/
def unionPairs {ε : Type} (store : Store ε) (prox : ℕ) :
    List (String × String) → DocSet → Except ε DocSet
  | [], acc => .ok acc
  | (w1, w2) :: rest, acc =>
    match store w1 w2 prox with
    | .error e => .error e
    | .ok none => unionPairs store prox rest acc
    | .ok (some di) => unionPairs store prox rest (acc ∪ di)

/-- The pruned pairs for the two leading slots of a suffix
(`words_pair_combinations(&words[0].0, &words[1].0)`). -/
def headPairs : List Slot → List (String × String)
  | w1 :: w2 :: _ => words_pair_combinations w1.1 w2.1
  | _ => []

/-- The docids computed in the `Vacant` arm for one proximity: the full
candidate set when `proximity == 8`, otherwise the union over the pruned
pairs of the store's docids. -/
def headDocids {ε : Type} (store : Store ε) (pairs : List (String × String))
    (prox : ℕ) (candidates : DocSet) : Except ε DocSet :=
  if prox = 8 then .ok candidates else unionPairs store prox pairs ∅

/-- The list of proximities tried by `mdfs_step`'s
`for proximity in min_proximity..=max_proximity` loop, for a suffix `ws`:
`nb_children = tail.len() - 1`,
`min_proximity = max(1, mana.saturating_sub(nb_children * 8)) as u8`,
`max_proximity = min(8, mana - nb_children) as u8`. -/
def proxRangeFor (mana : ℕ) (ws : List Slot) : List ℕ :=
  let nb := ws.length - 2
  let minP := (max 1 (mana - 8 * nb)) % 256
  let maxP := min 8 (sub32 mana nb)
  List.range' minP (maxP + 1 - minP)

theorem proxRangeFor_length_le (mana : ℕ) (ws : List Slot) :
    (proxRangeFor mana ws).length ≤ 9 := by
  simp only [proxRangeFor, List.length_range']
  omega

/-- The body of `mdfs_step`, with the proximity `for` loop made explicit as
recursion over the remaining proximity list `proxs`
(initially `proxRangeFor mana ws`).  Returns the Rust
`anyhow::Result<Option<RoaringBitmap>>` together with the threaded cache.
For each proximity: take the cached union (`Occupied`) or compute and insert
it (`Vacant`, `headDocids`), intersect with `parent_docids`, and if non-empty
either answer directly (`tail.len() < 2`) or recurse on the tail with the
reduced mana.  The recursion is driven by structural fuel so that it
computes by kernel reduction; every call strictly decreases the measure
`ws.length * 10 + proxs.length`, so any fuel above that measure gives the
fuel-independent result (`mdfs_go_fuel_congr`), and `mdfs_step` supplies
such fuel.  The `checked_sub` `none` arm is where Rust would panic on
`unwrap`; it is proved unreachable for calls satisfying the iterator's
invariant (claim C9) and returns `.ok none` here.  The catch-all arm covers
suffixes of fewer than 2 slots, where Rust's `words[1]` would panic; it is
likewise unreachable from the iterator. -/
def mdfs_go {ε : Type} (store : Store ε) :
    (fuel : ℕ) → (ws : List Slot) → (mana : ℕ) → (proxs : List ℕ) →
    (candidates parent_docids : DocSet) → (cache : Cache) →
    (Except ε (Option DocSet)) × Cache
  | 0, _, _, _, _, _, cache => (.ok none, cache)
  | _ + 1, _ :: _ :: _, _, [], _, _, cache => (.ok none, cache)
  | fuel + 1, w1 :: w2 :: rest, mana, p :: ps, candidates, parent_docids, cache =>
    -- the Occupied/Vacant match of `union_cache.entry((words.len(), proximity))`
    let probe : Except ε (DocSet × Cache) :=
      match cacheFind cache ((w1 :: w2 :: rest).length, p) with
      | some d => .ok (d, cache)
      | none =>
        match headDocids store (headPairs (w1 :: w2 :: rest)) p candidates with
        | .error e => .error e
        | .ok d => .ok (d, cacheInsert cache ((w1 :: w2 :: rest).length, p) d)
    match probe with
    | .error e => (.error e, cache)
    | .ok (d, cache1) =>
      let docids := d ∩ parent_docids
      if docids = ∅ then
        mdfs_go store fuel (w1 :: w2 :: rest) mana ps candidates parent_docids cache1
      else
        match checked_sub mana p with
        | none => (.ok none, cache1)  -- Rust panics here; unreachable (C9)
        | some mana1 =>
          if rest.length < 1 then (.ok (some docids), cache1)
          else
            match mdfs_go store fuel (w2 :: rest) mana1 (proxRangeFor mana1 (w2 :: rest))
                candidates docids cache1 with
            | (.error e, cache2) => (.error e, cache2)
            | (.ok (some di), cache2) => (.ok (some di), cache2)
            | (.ok none, cache2) =>
              mdfs_go store fuel (w1 :: w2 :: rest) mana ps candidates parent_docids cache2
  | _ + 1, _, _, _, _, _, cache => (.ok none, cache)

/-- `mdfs_step`: wrapper setting up the proximity range for the suffix
(`min_proximity..=max_proximity`) and running the loop body `mdfs_go`. -/
def mdfs_step {ε : Type} (store : Store ε) (mana : ℕ) (words : List Slot)
    (candidates parent_docids : DocSet) (cache : Cache) :
    (Except ε (Option DocSet)) × Cache :=
  mdfs_go store (words.length * 10 + 10) words mana (proxRangeFor mana words)
    candidates parent_docids cache

/-- A successful `mdfs_go` answer is a non-empty subset of `parent_docids`
(the answer is built by intersecting with the parent set, and only non-empty
intersections are ever returned). -/
theorem mdfs_go_some_sub {ε : Type} (store : Store ε) (fuel : ℕ) (ws : List Slot)
    (mana : ℕ) (proxs : List ℕ) (candidates parent_docids : DocSet) (cache : Cache) :
    ∀ d c', mdfs_go store fuel ws mana proxs candidates parent_docids cache = (.ok (some d), c') →
      d ⊆ parent_docids ∧ d ≠ ∅ := by
  induction fuel, ws, mana, proxs, candidates, parent_docids, cache using mdfs_go.induct store with
  | case1 cache => intro d c' h; simp [mdfs_go] at h
  | case2 fuel w1 w2 rest mana candidates parent_docids cache =>
    intro d c' h
    simp [mdfs_go] at h
  | case3 fuel w1 w2 rest mana p ps candidates parent_docids cache probe e hprobe =>
    intro d c' h
    rw [mdfs_go] at h
    unfold probe at hprobe
    rw [hprobe] at h
    simp at h
  | case4 fuel w1 w2 rest mana p ps candidates parent_docids cache probe d0 cache1 hprobe docids hemp ih =>
    intro d c' h
    rw [mdfs_go] at h
    unfold probe at hprobe
    rw [hprobe] at h
    simp only [docids] at h ⊢
    rw [if_pos hemp] at h
    exact ih d c' h
  | case5 fuel w1 w2 rest mana p ps candidates parent_docids cache probe d0 cache1 hprobe docids hemp hsub =>
    intro d c' h
    rw [mdfs_go] at h
    unfold probe at hprobe
    rw [hprobe] at h
    simp only [docids] at h
    rw [if_neg hemp, hsub] at h
    simp at h
  | case6 fuel w1 w2 rest mana p ps candidates parent_docids cache probe d0 cache1 hprobe docids hemp mana1 hsub hlen =>
    intro d c' h
    rw [mdfs_go] at h
    unfold probe at hprobe
    rw [hprobe] at h
    simp only [docids] at h hemp
    rw [if_neg hemp, hsub] at h
    dsimp only at h
    rw [if_pos hlen] at h
    simp at h
    obtain ⟨h1, _⟩ := h
    subst h1
    exact ⟨Finset.inter_subset_right, hemp⟩
  | case7 fuel w1 w2 rest mana p ps candidates parent_docids cache probe d0 cache1 hprobe docids hemp mana1 hsub hlen e cache2 hrec ih =>
    intro d c' h
    rw [mdfs_go] at h
    unfold probe at hprobe
    rw [hprobe] at h
    simp only [docids] at h hemp
    rw [if_neg hemp, hsub] at h
    dsimp only at h
    rw [if_neg hlen, hrec] at h
    dsimp only at h
    simp at h
  | case8 fuel w1 w2 rest mana p ps candidates parent_docids cache probe d0 cache1 hprobe docids hemp mana1 hsub hlen di cache2 hrec ih =>
    intro d c' h
    rw [mdfs_go] at h
    unfold probe at hprobe
    rw [hprobe] at h
    simp only [docids] at h hemp
    rw [if_neg hemp, hsub] at h
    dsimp only at h
    rw [if_neg hlen, hrec] at h
    dsimp only at h
    simp at h
    obtain ⟨h1, _⟩ := h
    subst h1
    obtain ⟨hsub2, hne⟩ := ih di cache2 hrec
    exact ⟨hsub2.trans Finset.inter_subset_right, hne⟩
  | case9 fuel w1 w2 rest mana p ps candidates parent_docids cache probe d0 cache1 hprobe docids hemp mana1 hsub hlen cache2 hrec ih1 ih2 =>
    intro d c' h
    rw [mdfs_go] at h
    unfold probe at hprobe
    rw [hprobe] at h
    simp only [docids] at h hemp
    rw [if_neg hemp, hsub] at h
    dsimp only at h
    rw [if_neg hlen, hrec] at h
    dsimp only at h
    exact ih2 d c' h
  | case10 fuel ws mana proxs candidates parent_docids cache hne1 hne2 =>
    intro d c' h
    match ws, proxs with
    | [], _ => simp [mdfs_go] at h
    | [w], _ => simp [mdfs_go] at h
    | w1 :: w2 :: rest, [] => exact (hne1 w1 w2 rest rfl rfl).elim
    | w1 :: w2 :: rest, p :: ps => exact (hne2 w1 w2 rest p ps rfl rfl).elim

/-- Corollary at the `mdfs_step` level: a returned document set is a
non-empty subset of the parent (hence of the candidates, when called with
`parent_docids = candidates` as the iterator does). -/
theorem mdfs_step_some_sub {ε : Type} {store : Store ε} {mana : ℕ} {words : List Slot}
    {candidates parent_docids : DocSet} {cache : Cache} {d : DocSet} {c' : Cache}
    (h : mdfs_step store mana words candidates parent_docids cache = (.ok (some d), c')) :
    d ⊆ parent_docids ∧ d ≠ ∅ :=
  mdfs_go_some_sub store (words.length * 10 + 10) words mana (proxRangeFor mana words)
    candidates parent_docids cache d c' h

/-- The result of one call to `Mdfs::next`:
`Some(Ok(batch))`, `Some(Err(e))`, `None` (exhaustion), or fuel ran out in
the model (never an outcome of the Rust code, which terminates). -/
inductive NextRes (ε : Type) where
  | batch (b : DocSet)
  | fail (e : ε)
  | exhausted
  | outOfFuel
deriving DecidableEq

/-- The observable outcome of one call to `Mdfs::next` together with the
iterator state it leaves behind, plus a ghost log `events` recording, for
each `mdfs_step` invocation made by the `while` loop, the mana used and the
`Ok` outcome (`some batch-part` or `none`). -/
structure LoopOut (ε : Type) where
  res : NextRes ε
  cache : Cache
  candidates : DocSet
  mana : ℕ
  events : List (ℕ × Option DocSet)
deriving DecidableEq

/-- The `while self.mana <= self.max_mana` loop of `Mdfs::next`, with fuel.
On `Ok(Some(a))`: remove `a` from the candidates, add it to the answer, and
loop at the same mana.  On `Ok(None)`: advance mana; return the answer if it
is non-empty, else loop.  On `Err(e)`: return the error at once.  When the
loop condition fails, report exhaustion (`None`). -/
def mdfsLoop {ε : Type} (store : Store ε) (words : List Slot) (maxMana : ℕ) :
    (fuel : ℕ) → Cache → DocSet → ℕ → DocSet → LoopOut ε
  | 0, cache, cands, mana, _ => ⟨.outOfFuel, cache, cands, mana, []⟩
  | fuel + 1, cache, cands, mana, answer =>
    if mana ≤ maxMana then
      match mdfs_step store mana words cands cands cache with
      | (.error e, cache') => ⟨.fail e, cache', cands, mana, []⟩
      | (.ok (some a), cache') =>
        let out := mdfsLoop store words maxMana fuel cache' (cands \ a) mana (answer ∪ a)
        { out with events := (mana, some a) :: out.events }
      | (.ok none, cache') =>
        -- Rust: `self.mana = self.mana + 1;` happens before the answer test.
        if answer = ∅ then
          let out := mdfsLoop store words maxMana fuel cache' cands (mana + 1) answer
          { out with events := (mana, none) :: out.events }
        else ⟨.batch answer, cache', cands, mana + 1, [(mana, none)]⟩
    else ⟨.exhausted, cache, cands, mana, []⟩

/-- One call to `Mdfs::next`.  With at most one word slot the candidates are
taken wholesale (`mem::take`) if non-empty; otherwise the mana loop runs. -/
def mdfsNext {ε : Type} (store : Store ε) (words : List Slot) (maxMana : ℕ)
    (fuel : ℕ) (cache : Cache) (cands : DocSet) (mana : ℕ) : LoopOut ε :=
  if words.length ≤ 1 then
    if cands = ∅ then ⟨.exhausted, cache, cands, mana, []⟩
    else ⟨.batch cands, cache, ∅, mana, []⟩
  else mdfsLoop store words maxMana fuel cache cands mana ∅

/-- Ghost record of one batch-yielding `next` call: the batch, the iterator
state right after the call, and the call's `mdfs_step` event log. -/
structure CallInfo where
  batch : DocSet
  candAfter : DocSet
  manaAfter : ℕ
  events : List (ℕ × Option DocSet)
deriving DecidableEq

/-- How a whole run of the iterator ended: genuine exhaustion (`None`),
a store error surfaced to the caller, or the model's fuel ran out. -/
inductive RunEnd (ε : Type) where
  | done
  | fail (e : ε)
  | outOfFuel
deriving DecidableEq

/-- A whole run of the iterator: the batch-yielding calls in order, how the
run ended, the final state, and the terminal call's event log. -/
structure RunOut (ε : Type) where
  calls : List CallInfo
  res : RunEnd ε
  cache : Cache
  candidates : DocSet
  mana : ℕ
  tailEvents : List (ℕ × Option DocSet)
deriving DecidableEq

/-- Drive the iterator to completion: call `next` until it reports
exhaustion or an error (after an error the caller must treat the iterator
as terminated).  `innerFuel` bounds each `next` call's loop; `outerFuel`
bounds the number of `next` calls. -/
def mdfsRun {ε : Type} (store : Store ε) (words : List Slot) (maxMana innerFuel : ℕ) :
    (outerFuel : ℕ) → Cache → DocSet → ℕ → RunOut ε
  | 0, cache, cands, mana => ⟨[], .outOfFuel, cache, cands, mana, []⟩
  | fo + 1, cache, cands, mana =>
    let out := mdfsNext store words maxMana innerFuel cache cands mana
    match out.res with
    | .batch b =>
      let r := mdfsRun store words maxMana innerFuel fo out.cache out.candidates out.mana
      { r with calls := ⟨b, out.candidates, out.mana, out.events⟩ :: r.calls }
    | .fail e => ⟨[], .fail e, out.cache, out.candidates, out.mana, out.events⟩
    | .exhausted => ⟨[], .done, out.cache, out.candidates, out.mana, out.events⟩
    | .outOfFuel => ⟨[], .outOfFuel, out.cache, out.candidates, out.mana, out.events⟩

/-- `Mdfs::new`: initial mana `words.len().checked_sub(1).unwrap_or(0)`
(truncating ℕ subtraction). -/
def mdfsInitMana (words : List Slot) : ℕ := words.length - 1

/-- `Mdfs::new`: `max_mana = mana * 8`. -/
def mdfsMaxMana (words : List Slot) : ℕ := (words.length - 1) * 8

/-- A whole run of a freshly constructed iterator (`Mdfs::new` followed by
`next` calls until exhaustion or error): empty cache, initial mana. -/
def mdfsRunNew {ε : Type} (store : Store ε) (words : List Slot) (cands : DocSet)
    (innerFuel outerFuel : ℕ) : RunOut ε :=
  mdfsRun store words (mdfsMaxMana words) innerFuel outerFuel [] cands (mdfsInitMana words)

/-- The sequence of batches a run yielded, in order. -/
def RunOut.batches {ε : Type} (r : RunOut ε) : List DocSet :=
  r.calls.map CallInfo.batch

/-- The remaining candidate set only shrinks across one `next` call's loop. -/
theorem mdfsLoop_candidates_subset {ε : Type} (store : Store ε) (words : List Slot)
    (maxMana : ℕ) : ∀ (fuel : ℕ) (cache : Cache) (cands : DocSet) (mana : ℕ) (answer : DocSet),
    (mdfsLoop store words maxMana fuel cache cands mana answer).candidates ⊆ cands := by
  intro fuel
  induction fuel with
  | zero => intro cache cands mana answer; simp [mdfsLoop]
  | succ n ih =>
    intro cache cands mana answer
    rw [mdfsLoop]
    split
    · split
      · simp
      · exact (ih ..).trans Finset.sdiff_subset
      · split
        · exact ih ..
        · simp
    · simp

/-- The mana threshold never decreases across one `next` call's loop. -/
theorem mdfsLoop_mana_le {ε : Type} (store : Store ε) (words : List Slot)
    (maxMana : ℕ) : ∀ (fuel : ℕ) (cache : Cache) (cands : DocSet) (mana : ℕ) (answer : DocSet),
    mana ≤ (mdfsLoop store words maxMana fuel cache cands mana answer).mana := by
  intro fuel
  induction fuel with
  | zero => intro cache cands mana answer; simp [mdfsLoop]
  | succ n ih =>
    intro cache cands mana answer
    rw [mdfsLoop]
    split
    · split
      · simp
      · exact ih ..
      · split
        · exact (Nat.le_succ mana).trans (ih ..)
        · simp
    · simp

/-- What a batch returned by the `while` loop satisfies: it is non-empty,
together with the remaining candidates it partitions `answer ∪ cands` (no
document lost), and it is disjoint from the remaining candidates (provided
the accumulated answer already was, as at loop entry). -/
theorem mdfsLoop_batch_spec {ε : Type} (store : Store ε) (words : List Slot)
    (maxMana : ℕ) : ∀ (fuel : ℕ) (cache : Cache) (cands : DocSet) (mana : ℕ)
    (answer : DocSet) (out : LoopOut ε) (b : DocSet),
    mdfsLoop store words maxMana fuel cache cands mana answer = out →
    out.res = .batch b →
    b ≠ ∅ ∧ b ∪ out.candidates = answer ∪ cands ∧
      (answer ∩ cands = ∅ → b ∩ out.candidates = ∅) := by
  intro fuel
  induction fuel with
  | zero =>
    intro cache cands mana answer out b hout hres
    rw [mdfsLoop] at hout
    subst hout
    simp at hres
  | succ n ih =>
    intro cache cands mana answer out b hout hres
    rw [mdfsLoop] at hout
    split at hout
    · split at hout
      next e cache' heq => subst hout; simp at hres
      next a cache' heq =>
        subst hout
        simp only at hres
        obtain ⟨hsuba, hnea⟩ := mdfs_step_some_sub heq
        obtain ⟨hb1, hb2, hb3⟩ := ih cache' (cands \ a) mana (answer ∪ a) _ b rfl hres
        refine ⟨hb1, ?_, ?_⟩
        · rw [hb2, Finset.union_assoc, Finset.union_sdiff_of_subset hsuba]
        · intro hdisj
          refine hb3 ?_
          rw [Finset.union_inter_distrib_right]
          have h1 : answer ∩ (cands \ a) = ∅ := by
            rw [Finset.eq_empty_iff_forall_not_mem]
            intro x hx
            rw [Finset.mem_inter, Finset.mem_sdiff] at hx
            exact Finset.eq_empty_iff_forall_not_mem.mp hdisj x
              (Finset.mem_inter.mpr ⟨hx.1, hx.2.1⟩)
          rw [h1, Finset.inter_sdiff_self, Finset.union_empty]
      next cache' heq =>
        split at hout
        next hans =>
          subst hout hans
          simp only at hres
          obtain ⟨hb1, hb2, hb3⟩ := ih cache' cands (mana + 1) ∅ _ b rfl hres
          refine ⟨hb1, ?_, fun _ => hb3 (by simp)⟩
          simpa using hb2
        next hans =>
          subst hout
          simp only at hres
          rw [NextRes.batch.injEq] at hres
          subst hres
          refine ⟨hans, rfl, fun hdisj => hdisj⟩
    · subst hout; simp at hres

/-- When the loop reports exhaustion (`None`), the candidates are untouched
and the accumulated answer was empty (no documents are silently dropped),
provided a non-empty answer implies the loop condition still holds — true
at loop entry, where the answer starts empty. -/
theorem mdfsLoop_exhausted_spec {ε : Type} (store : Store ε) (words : List Slot)
    (maxMana : ℕ) : ∀ (fuel : ℕ) (cache : Cache) (cands : DocSet) (mana : ℕ)
    (answer : DocSet) (out : LoopOut ε),
    mdfsLoop store words maxMana fuel cache cands mana answer = out →
    (answer ≠ ∅ → mana ≤ maxMana) →
    out.res = .exhausted →
    out.candidates = cands ∧ answer = ∅ := by
  intro fuel
  induction fuel with
  | zero =>
    intro cache cands mana answer out hout hinv hres
    rw [mdfsLoop] at hout
    subst hout
    simp at hres
  | succ n ih =>
    intro cache cands mana answer out hout hinv hres
    rw [mdfsLoop] at hout
    split at hout
    next hle =>
      split at hout
      next e cache' heq => subst hout; simp at hres
      next a cache' heq =>
        subst hout
        simp only at hres
        obtain ⟨hc, ha⟩ := ih cache' (cands \ a) mana (answer ∪ a) _ rfl (fun _ => hle) hres
        obtain ⟨-, hnea⟩ := mdfs_step_some_sub heq
        exact absurd (Finset.union_eq_empty.mp ha).2 hnea
      next cache' heq =>
        split at hout
        next hans =>
          subst hout hans
          simp only at hres
          obtain ⟨hc, _⟩ := ih cache' cands (mana + 1) ∅ _ rfl (by simp) hres
          exact ⟨hc, rfl⟩
        next hans => subst hout; simp at hres
    next hle =>
      subst hout
      refine ⟨rfl, ?_⟩
      by_contra hne
      exact hle (hinv hne)

/-- Helper: intersecting with a subset of a disjoint set stays empty. -/
theorem inter_empty_of_subset {s t u : DocSet} (h : s ∩ t = ∅) (hu : u ⊆ t) :
    s ∩ u = ∅ := by
  rw [Finset.eq_empty_iff_forall_not_mem]
  intro x hx
  rw [Finset.mem_inter] at hx
  exact Finset.eq_empty_iff_forall_not_mem.mp h x (Finset.mem_inter.mpr ⟨hx.1, hu hx.2⟩)

/-- What one `Mdfs::next` call guarantees, covering both the `words.len() <= 1`
shortcut and the mana loop: a yielded batch is non-empty, partitions the
candidates it started from together with the remaining ones, and is disjoint
from them; exhaustion leaves the candidates untouched; candidates only
shrink and mana only grows. -/
theorem mdfsNext_spec {ε : Type} (store : Store ε) (words : List Slot) (maxMana : ℕ)
    (fuel : ℕ) (cache : Cache) (cands : DocSet) (mana : ℕ) (out : LoopOut ε)
    (hout : mdfsNext store words maxMana fuel cache cands mana = out) :
    (∀ b, out.res = .batch b →
      b ≠ ∅ ∧ b ∪ out.candidates = cands ∧ b ∩ out.candidates = ∅) ∧
    (out.res = .exhausted → out.candidates = cands) ∧
    out.candidates ⊆ cands ∧ mana ≤ out.mana := by
  rw [mdfsNext] at hout
  split at hout
  · split at hout
    next hemp =>
      subst hout
      exact ⟨fun b hb => by simp at hb, fun _ => rfl, le_refl _, le_refl _⟩
    next hemp =>
      subst hout
      refine ⟨fun b hb => ?_, fun h => by simp at h, by simp, le_refl _⟩
      simp only at hb
      rw [NextRes.batch.injEq] at hb
      subst hb
      exact ⟨hemp, by simp, by simp⟩
  · refine ⟨fun b hb => ?_, fun h => ?_, ?_, ?_⟩
    · obtain ⟨h1, h2, h3⟩ := mdfsLoop_batch_spec store words maxMana fuel cache cands mana ∅ out b hout hb
      rw [Finset.empty_union] at h2
      exact ⟨h1, h2, h3 (by simp)⟩
    · exact (mdfsLoop_exhausted_spec store words maxMana fuel cache cands mana ∅ out hout
        (by simp) h).1
    · rw [← hout]; exact mdfsLoop_candidates_subset ..
    · rw [← hout]; exact mdfsLoop_mana_le ..

/-- Union of the batches of a list of calls. -/
def unionCalls (cs : List CallInfo) : DocSet :=
  cs.foldr (fun c acc => c.batch ∪ acc) ∅

/-- Master invariant of a whole run, from an arbitrary iterator state:
every yielded batch is non-empty; each batch is disjoint from the candidate
set left by its own call, from every later call's batch and left-over
candidate set, and from the final candidates; candidates only shrink; and
if the run ended in genuine exhaustion, the yielded batches plus the final
candidates partition the starting candidates. -/
theorem mdfsRun_spec {ε : Type} (store : Store ε) (words : List Slot)
    (maxMana innerFuel : ℕ) :
    ∀ (outerFuel : ℕ) (cache : Cache) (cands : DocSet) (mana : ℕ) (r : RunOut ε),
    mdfsRun store words maxMana innerFuel outerFuel cache cands mana = r →
    (∀ c ∈ r.calls, c.batch ≠ ∅) ∧
    (∀ c ∈ r.calls, c.batch ∩ c.candAfter = ∅) ∧
    (∀ c ∈ r.calls, c.batch ⊆ cands ∧ c.candAfter ⊆ cands) ∧
    r.candidates ⊆ cands ∧
    r.calls.Pairwise (fun c c' => c.batch ∩ c'.batch = ∅ ∧ c.batch ∩ c'.candAfter = ∅) ∧
    (∀ c ∈ r.calls, c.batch ∩ r.candidates = ∅) ∧
    (r.res = .done → unionCalls r.calls ∪ r.candidates = cands) := by
  intro outerFuel
  induction outerFuel with
  | zero =>
    intro cache cands mana r hr
    rw [mdfsRun] at hr
    subst hr
    simp [unionCalls]
  | succ fo ih =>
    intro cache cands mana r hr
    rw [mdfsRun] at hr
    split at hr
    next b hres =>
      obtain ⟨hbat, hexh, hsub, hmana⟩ := mdfsNext_spec store words maxMana innerFuel cache cands mana _ rfl
      obtain ⟨hne, hpart, hdisj⟩ := hbat b hres
      set out := mdfsNext store words maxMana innerFuel cache cands mana with hdefout
      obtain ⟨ih1, ih2, ih3, ih4, ih5, ih6, ih7⟩ :=
        ih out.cache out.candidates out.mana _ rfl
      subst hr
      have hbsub : b ⊆ cands := by
        rw [← hpart]; exact Finset.subset_union_left
      refine ⟨?_, ?_, ?_, ?_, ?_, ?_, ?_⟩
      · intro c hc
        rcases List.mem_cons.mp hc with h | h
        · subst h; exact hne
        · exact ih1 c h
      · intro c hc
        rcases List.mem_cons.mp hc with h | h
        · subst h; exact hdisj
        · exact ih2 c h
      · intro c hc
        rcases List.mem_cons.mp hc with h | h
        · subst h; exact ⟨hbsub, hsub⟩
        · exact ⟨(ih3 c h).1.trans hsub, (ih3 c h).2.trans hsub⟩
      · exact ih4.trans hsub
      · simp only [List.pairwise_cons]
        refine ⟨fun c hc => ?_, ih5⟩
        exact ⟨inter_empty_of_subset hdisj (ih3 c hc).1,
               inter_empty_of_subset hdisj (ih3 c hc).2⟩
      · intro c hc
        rcases List.mem_cons.mp hc with h | h
        · subst h
          exact inter_empty_of_subset hdisj ih4
        · exact ih6 c h
      · intro hdone
        simp only at hdone
        have := ih7 hdone
        simp only [unionCalls, List.foldr_cons] at *
        rw [Finset.union_assoc, this, hpart]
    next e hres =>
      obtain ⟨hbat, hexh, hsub, hmana⟩ := mdfsNext_spec store words maxMana innerFuel cache cands mana _ rfl
      subst hr
      exact ⟨by simp, by simp, by simp, hsub, List.Pairwise.nil, by simp,
        fun h => by simp at h⟩
    next hres =>
      obtain ⟨hbat, hexh, hsub, hmana⟩ := mdfsNext_spec store words maxMana innerFuel cache cands mana _ rfl
      subst hr
      refine ⟨by simp, by simp, by simp, hsub, List.Pairwise.nil, by simp, fun _ => ?_⟩
      simp only [unionCalls, List.foldr_nil, Finset.empty_union]
      exact hexh hres
    next hres =>
      obtain ⟨hbat, hexh, hsub, hmana⟩ := mdfsNext_spec store words maxMana innerFuel cache cands mana _ rfl
      subst hr
      exact ⟨by simp, by simp, by simp, hsub, List.Pairwise.nil, by simp,
        fun h => by simp at h⟩

/-- Fuel adequacy: any two fuels above the measure `ws.length * 10 + proxs.length`
give the same `mdfs_go` result, because each recursive call strictly
decreases that measure.  `mdfs_step` supplies `words.length * 10 + 10`,
which is above the measure (the proximity list never exceeds 9 entries),
so its result is the fuel-independent one: the fuel is a computation
device, not part of the modelled semantics. -/
theorem mdfs_go_fuel_congr {ε : Type} (store : Store ε) :
    ∀ (f₁ f₂ : ℕ) (ws : List Slot) (mana : ℕ) (proxs : List ℕ)
      (candidates parent_docids : DocSet) (cache : Cache),
    ws.length * 10 + proxs.length < f₁ → ws.length * 10 + proxs.length < f₂ →
    mdfs_go store f₁ ws mana proxs candidates parent_docids cache =
      mdfs_go store f₂ ws mana proxs candidates parent_docids cache := by
  intro f₁
  induction f₁ with
  | zero => intro f₂ ws mana proxs _ _ _ h1 _; omega
  | succ n ih =>
    intro f₂ ws mana proxs candidates parent_docids cache h1 h2
    match f₂, ws, proxs with
    | 0, ws, proxs => omega
    | m + 1, [], proxs => simp [mdfs_go]
    | m + 1, [w], proxs => simp [mdfs_go]
    | m + 1, w1 :: w2 :: rest, [] => simp [mdfs_go]
    | m + 1, w1 :: w2 :: rest, p :: ps =>
      simp only [List.length_cons] at h1 h2
      rw [mdfs_go]
      conv_rhs => rw [mdfs_go]
      have hcont : ∀ (d : DocSet) (cache1 : Cache),
          (if d ∩ parent_docids = ∅ then
            mdfs_go store n (w1 :: w2 :: rest) mana ps candidates parent_docids cache1
          else
            match checked_sub mana p with
            | none => (.ok none, cache1)
            | some mana1 =>
              if rest.length < 1 then (.ok (some (d ∩ parent_docids)), cache1)
              else
                match mdfs_go store n (w2 :: rest) mana1 (proxRangeFor mana1 (w2 :: rest))
                    candidates (d ∩ parent_docids) cache1 with
                | (.error e, cache2) => (.error e, cache2)
                | (.ok (some di), cache2) => (.ok (some di), cache2)
                | (.ok none, cache2) =>
                  mdfs_go store n (w1 :: w2 :: rest) mana ps candidates parent_docids cache2) =
          (if d ∩ parent_docids = ∅ then
            mdfs_go store m (w1 :: w2 :: rest) mana ps candidates parent_docids cache1
          else
            match checked_sub mana p with
            | none => (.ok none, cache1)
            | some mana1 =>
              if rest.length < 1 then (.ok (some (d ∩ parent_docids)), cache1)
              else
                match mdfs_go store m (w2 :: rest) mana1 (proxRangeFor mana1 (w2 :: rest))
                    candidates (d ∩ parent_docids) cache1 with
                | (.error e, cache2) => (.error e, cache2)
                | (.ok (some di), cache2) => (.ok (some di), cache2)
                | (.ok none, cache2) =>
                  mdfs_go store m (w1 :: w2 :: rest) mana ps candidates parent_docids cache2) := by
        intro d cache1
        by_cases hde : d ∩ parent_docids = ∅
        · rw [if_pos hde, if_pos hde]
          exact ih m (w1 :: w2 :: rest) mana ps candidates parent_docids cache1
            (by simp; omega) (by simp; omega)
        · rw [if_neg hde, if_neg hde]
          cases hcs : checked_sub mana p with
          | none => rfl
          | some mana1 =>
            dsimp only
            by_cases hrl : rest.length < 1
            · rw [if_pos hrl, if_pos hrl]
            · rw [if_neg hrl, if_neg hrl]
              have htail : mdfs_go store n (w2 :: rest) mana1 (proxRangeFor mana1 (w2 :: rest))
                  candidates (d ∩ parent_docids) cache1 =
                  mdfs_go store m (w2 :: rest) mana1 (proxRangeFor mana1 (w2 :: rest))
                  candidates (d ∩ parent_docids) cache1 := by
                have h9 := proxRangeFor_length_le mana1 (w2 :: rest)
                exact ih m (w2 :: rest) mana1 (proxRangeFor mana1 (w2 :: rest))
                  candidates (d ∩ parent_docids) cache1
                  (by simp at *; omega) (by simp at *; omega)
              rw [htail]
              cases hgo : mdfs_go store m (w2 :: rest) mana1 (proxRangeFor mana1 (w2 :: rest))
                  candidates (d ∩ parent_docids) cache1 with
              | mk r cache2 =>
                cases r with
                | error e => rfl
                | ok o =>
                  cases o with
                  | none =>
                    dsimp only
                    exact ih m (w1 :: w2 :: rest) mana ps candidates parent_docids cache2
                      (by simp; omega) (by simp; omega)
                  | some di => rfl
      cases hcf : cacheFind cache ((w1 :: w2 :: rest).length, p) with
      | some d =>
        dsimp only
        exact hcont d cache
      | none =>
        dsimp only
        cases hhd : headDocids store (headPairs (w1 :: w2 :: rest)) p candidates with
        | error e => rfl
        | ok d =>
          dsimp only
          exact hcont d (cacheInsert cache ((w1 :: w2 :: rest).length, p) d)

/-! ### A concrete instance, used to witness the claims

The spec's own scenario: two word slots with one variant each (`"a"`, `"b"`),
both variants indexed for documents `{5, 9}`; the store records proximity 2
for the pair at `{5}` and proximity 3 at `{9}`.  Initial candidates `{5, 9}`.
The run yields batch `{5}` (mana 2), then `{9}` (mana 3), then exhaustion. -/

/-- Concrete store: `("a","b",2) ↦ {5}`, `("a","b",3) ↦ {9}`, nothing else. -/
def exStore : Store ℕ := fun w1 w2 p =>
  if w1 = "a" ∧ w2 = "b" ∧ p = 2 then .ok (some {5})
  else if w1 = "a" ∧ w2 = "b" ∧ p = 3 then .ok (some {9})
  else .ok none

/-- Concrete word slots: one variant per slot. -/
def exWords : List Slot :=
  [([("a", (0, {5, 9}))], {5, 9}), ([("b", (0, {5, 9}))], {5, 9})]

/-- Concrete initial candidates. -/
def exCands : DocSet := {5, 9}

/-- The concrete run (ample fuel). -/
def exRun : RunOut ℕ := mdfsRunNew exStore exWords exCands 40 10

/-- A store whose every lookup fails, for the error-path witnesses. -/
def exFailStore : Store ℕ := fun _ _ p =>
  if p = 2 then .error 7 else .ok none

/-- **C1**: across the lifetime of one `Mdfs` iterator instance, every batch
yielded as `Ok` is non-empty, any two yielded batches are pairwise disjoint,
and every yielded batch is disjoint from the candidate set remaining in the
iterator at every later point: the candidate set left behind by its own
`next` call, the one left by every later call, and the final remaining
candidates when the iterator signals exhaustion. -/
theorem claim_C1 {ε : Type} (store : Store ε) (words : List Slot) (cands : DocSet)
    (innerFuel outerFuel : ℕ) (r : RunOut ε)
    (hr : mdfsRunNew store words cands innerFuel outerFuel = r) :
    (∀ c ∈ r.calls, c.batch ≠ ∅) ∧
    r.batches.Pairwise (fun a b => a ∩ b = ∅) ∧
    (∀ c ∈ r.calls, c.batch ∩ c.candAfter = ∅) ∧
    r.calls.Pairwise (fun c c' => c.batch ∩ c'.candAfter = ∅) ∧
    (∀ c ∈ r.calls, c.batch ∩ r.candidates = ∅) := by
  obtain ⟨h1, h2, h3, h4, h5, h6, h7⟩ := mdfsRun_spec store words (mdfsMaxMana words)
    innerFuel outerFuel [] cands (mdfsInitMana words) r hr
  refine ⟨h1, ?_, h2, ?_, h6⟩
  · rw [RunOut.batches, List.pairwise_map]
    exact h5.imp (fun h => h.1)
  · exact h5.imp (fun h => h.2)

/-- Witness for C1 on the concrete instance: the first yielded batch is
non-empty, the batches are pairwise disjoint, and the first batch is
disjoint from the final remaining candidates. -/
theorem claim_C1_witness :
    (exRun.calls.getD 0 ⟨∅, ∅, 0, []⟩).batch ≠ ∅ ∧
    exRun.batches.Pairwise (fun a b => a ∩ b = ∅) ∧
    (exRun.calls.getD 0 ⟨∅, ∅, 0, []⟩).batch ∩ exRun.candidates = ∅ := by
  obtain ⟨h1, h2, h3, h4, h5⟩ := claim_C1 exStore exWords exCands 40 10 exRun rfl
  have hmem : exRun.calls.getD 0 ⟨∅, ∅, 0, []⟩ ∈ exRun.calls := by decide
  exact ⟨h1 _ hmem, h2, h5 _ hmem⟩

/-- **C2**: for every run of one `Mdfs` iterator in which no store-access
error occurs — in particular whenever the iterator reaches genuine
exhaustion (`None`) — the union of all batches yielded over the iterator's
lifetime together with the candidates still remaining at exhaustion equals
the initial candidate set passed to `Mdfs::new`: no document id is lost. -/
theorem claim_C2 {ε : Type} (store : Store ε) (words : List Slot) (cands : DocSet)
    (innerFuel outerFuel : ℕ) (r : RunOut ε)
    (hr : mdfsRunNew store words cands innerFuel outerFuel = r)
    (hdone : r.res = .done) :
    unionCalls r.calls ∪ r.candidates = cands :=
  (mdfsRun_spec store words (mdfsMaxMana words) innerFuel outerFuel [] cands
    (mdfsInitMana words) r hr).2.2.2.2.2.2 hdone

/-- Witness for C2 on the concrete instance: the run ends exhausted and
`{5} ∪ {9}` plus the empty final remainder restores `{5, 9}`. -/
theorem claim_C2_witness : unionCalls exRun.calls ∪ exRun.candidates = exCands :=
  claim_C2 exStore exWords exCands 40 10 exRun rfl (by decide)

/-- **C4**: if a store lookup fails during a call to `next()`, that same
call returns the error unmodified (`Some(Err(e))`) and no batch — even when
documents were already found and accumulated earlier in the same call (the
universally quantified `answer` is exactly that accumulated partial batch).
The second conjunct descends into `mdfs_step`: a store failure surfacing
from the per-pair union computation aborts the search immediately with the
same error and without touching the cache. -/
theorem claim_C4 {ε : Type} (store : Store ε) (words : List Slot) (maxMana fuel : ℕ)
    (cache : Cache) (cands : DocSet) (mana : ℕ) (answer : DocSet) (e : ε) (cache' : Cache)
    (hstep : mdfs_step store mana words cands cands cache = (.error e, cache'))
    (hle : mana ≤ maxMana) :
    ((mdfsLoop store words maxMana (fuel + 1) cache cands mana answer).res = .fail e ∧
     ∀ b, (mdfsLoop store words maxMana (fuel + 1) cache cands mana answer).res ≠ .batch b) ∧
    (∀ (gfuel : ℕ) (w1 w2 : Slot) (rest : List Slot) (mana0 p : ℕ) (ps : List ℕ)
       (parent : DocSet),
      cacheFind cache ((w1 :: w2 :: rest).length, p) = none →
      headDocids store (headPairs (w1 :: w2 :: rest)) p cands = .error e →
      mdfs_go store (gfuel + 1) (w1 :: w2 :: rest) mana0 (p :: ps) cands parent cache =
        (.error e, cache)) := by
  constructor
  · rw [mdfsLoop, if_pos hle, hstep]
    exact ⟨rfl, fun b h => by simp at h⟩
  · intro gfuel w1 w2 rest mana0 p ps parent hmiss herr
    rw [mdfs_go, hmiss]
    dsimp only
    rw [herr]

/-- Witness for C4 on the concrete failing store, with a non-empty
already-accumulated answer `{5}`: the loop surfaces `Err(7)`. -/
theorem claim_C4_witness :
    (mdfsLoop exFailStore exWords (mdfsMaxMana exWords) 5 [] exCands 2 {5}).res = .fail 7 :=
  (claim_C4 exFailStore exWords (mdfsMaxMana exWords) 4 [] exCands 2 {5} 7 []
    (by rfl) (by decide)).1.1

/-- **C8**: with 0 or 1 word slots, a non-empty initial candidate set is
yielded wholesale as the single batch of the first `next()` call, and every
subsequent call signals completion (the run ends `.done` with no further
batch, and any later call on the emptied iterator exhausts); an empty
initial candidate set makes the very first call signal completion. -/
theorem claim_C8 {ε : Type} (store : Store ε) (words : List Slot) (cands : DocSet)
    (innerFuel outerFuel : ℕ) (hwords : words.length ≤ 1) :
    (cands ≠ ∅ →
      (mdfsRunNew store words cands innerFuel (outerFuel + 2)).batches = [cands] ∧
      (mdfsRunNew store words cands innerFuel (outerFuel + 2)).res = .done ∧
      (mdfsRunNew store words cands innerFuel (outerFuel + 2)).candidates = ∅ ∧
      (∀ (fuel : ℕ) (cache : Cache) (mana : ℕ),
        (mdfsNext store words (mdfsMaxMana words) fuel cache ∅ mana).res = .exhausted)) ∧
    (cands = ∅ →
      (mdfsRunNew store words cands innerFuel (outerFuel + 2)).batches = [] ∧
      (mdfsRunNew store words cands innerFuel (outerFuel + 2)).res = .done) := by
  constructor
  · intro hne
    have hnext1 : mdfsNext store words (mdfsMaxMana words) innerFuel [] cands
        (mdfsInitMana words) = ⟨.batch cands, [], ∅, mdfsInitMana words, []⟩ := by
      rw [mdfsNext, if_pos hwords, if_neg hne]
    have hnext2 : ∀ (fuel : ℕ) (cache : Cache) (mana : ℕ),
        mdfsNext store words (mdfsMaxMana words) fuel cache ∅ mana =
          ⟨.exhausted, cache, ∅, mana, []⟩ := by
      intro fuel cache mana
      rw [mdfsNext, if_pos hwords, if_pos rfl]
    refine ⟨?_, ?_, ?_, fun fuel cache mana => by rw [hnext2]⟩ <;>
      simp [mdfsRunNew, mdfsRun, hnext1, hnext2, RunOut.batches]
  · intro hemp
    subst hemp
    have hnext2 : ∀ (fuel : ℕ) (cache : Cache) (mana : ℕ),
        mdfsNext store words (mdfsMaxMana words) fuel cache ∅ mana =
          ⟨.exhausted, cache, ∅, mana, []⟩ := by
      intro fuel cache mana
      rw [mdfsNext, if_pos hwords, if_pos rfl]
    constructor <;> simp [mdfsRunNew, mdfsRun, hnext2, RunOut.batches]

/-- Witness for C8: a one-slot iterator over candidates `{5, 9}` yields the
single batch `{5, 9}` and completes; with empty candidates it completes at
once. -/
theorem claim_C8_witness :
    ((mdfsRunNew exStore [([("a", (0, {5, 9}))], {5, 9})] exCands 3 2).batches = [exCands] ∧
     (mdfsRunNew exStore [([("a", (0, {5, 9}))], {5, 9})] exCands 3 2).res = .done) ∧
    ((mdfsRunNew exStore [([("a", (0, {5, 9}))], {5, 9})] (∅ : DocSet) 3 2).batches = [] ∧
     (mdfsRunNew exStore [([("a", (0, {5, 9}))], {5, 9})] (∅ : DocSet) 3 2).res = .done) := by
  have h1 := (claim_C8 exStore [([("a", (0, {5, 9}))], {5, 9})] exCands 3 0
    (by decide)).1 (by decide)
  have h2 := (claim_C8 exStore [([("a", (0, {5, 9}))], {5, 9})] (∅ : DocSet) 3 0
    (by decide)).2 rfl
  exact ⟨⟨h1.1, h1.2.1⟩, h2⟩

/-- **C6**: when proximity 8 is selected for a pair, the document set
computed for that pair (the `Vacant`-arm computation of `mdfs_step`, here
`headDocids`) is the full candidate set, and no store lookup is performed:
the result does not depend on the store at all, and in particular never
fails, for any pruned-pair list whatsoever. -/
theorem claim_C6 (ε : Type) (store store' : Store ε) (pairs : List (String × String))
    (candidates : DocSet) :
    headDocids store pairs 8 candidates = .ok candidates ∧
    headDocids store pairs 8 candidates = headDocids store' pairs 8 candidates := by
  constructor <;> simp [headDocids]

/-- `unionPairs` consults the store only at the pairs in its list (at the
given proximity): stores agreeing there give identical results. -/
theorem unionPairs_congr {ε : Type} (store store' : Store ε) (p : ℕ) :
    ∀ (l : List (String × String)) (acc : DocSet),
      (∀ a b, (a, b) ∈ l → store a b p = store' a b p) →
      unionPairs store p l acc = unionPairs store' p l acc := by
  intro l
  induction l with
  | nil => intro acc _; rfl
  | cons hd tl ih =>
    intro acc h
    obtain ⟨a, b⟩ := hd
    rw [unionPairs, unionPairs, h a b (List.mem_cons_self ..)]
    cases store' a b p with
    | error e => rfl
    | ok o =>
      cases o with
      | none => exact ih acc (fun a' b' hm => h a' b' (List.mem_cons_of_mem _ hm))
      | some di => exact ih _ (fun a' b' hm => h a' b' (List.mem_cons_of_mem _ hm))

/-- **C7**: `words_pair_combinations` returns exactly the variant pairs of
the two adjacent slots whose per-variant document sets intersect; and the
per-pair union underlying every `< 8` proximity lookup of `mdfs_step`
consults the store only at those pairs, so a variant pair with disjoint
document sets never contributes to any lookup key or union. -/
theorem claim_C7 (w1 w2 : VariantMap) :
    (∀ x y, (x, y) ∈ words_pair_combinations w1 w2 ↔
      ∃ t1 d1 t2 d2, (x, (t1, d1)) ∈ w1 ∧ (y, (t2, d2)) ∈ w2 ∧ d1 ∩ d2 ≠ ∅) ∧
    (∀ (ε : Type) (store store' : Store ε) (p : ℕ) (acc : DocSet),
      (∀ a b, (a, b) ∈ words_pair_combinations w1 w2 → store a b p = store' a b p) →
      unionPairs store p (words_pair_combinations w1 w2) acc =
        unionPairs store' p (words_pair_combinations w1 w2) acc) := by
  constructor
  · intro x y
    constructor
    · intro h
      rw [words_pair_combinations, List.mem_flatMap] at h
      obtain ⟨a, ha, hmem⟩ := h
      rw [List.mem_filterMap] at hmem
      obtain ⟨b, hb, hsome⟩ := hmem
      by_cases hd : a.2.2 ∩ b.2.2 = ∅
      · rw [if_pos hd] at hsome
        exact absurd hsome (by simp)
      · rw [if_neg hd] at hsome
        simp only [Option.some.injEq, Prod.mk.injEq] at hsome
        obtain ⟨hx, hy⟩ := hsome
        subst hx
        subst hy
        exact ⟨a.2.1, a.2.2, b.2.1, b.2.2, ha, hb, hd⟩
    · rintro ⟨t1, d1, t2, d2, h1, h2, hne⟩
      rw [words_pair_combinations, List.mem_flatMap]
      exact ⟨(x, (t1, d1)), h1,
        List.mem_filterMap.mpr ⟨(y, (t2, d2)), h2, by rw [if_neg hne]⟩⟩
  · intro ε store store' p acc h
    exact unionPairs_congr store store' p _ acc h

/-- A second concrete store, agreeing with `exStore` on the pruned pair
`("a","b")` but failing everywhere else, for the C7 witness. -/
def exStore2 : Store ℕ := fun a b p =>
  if a = "a" ∧ b = "b" then exStore a b p else .error 9

/-- Witness for C7: the pair `("a","b")` of the concrete slots is pruned in
(their variant sets share `{5, 9}`), and the per-pair union is blind to
store changes outside the pruned pairs. -/
theorem claim_C7_witness :
    (∃ t1 d1 t2 d2, ("a", (t1, d1)) ∈ ([("a", (0, {5, 9}))] : VariantMap) ∧
      ("b", (t2, d2)) ∈ ([("b", (0, {5, 9}))] : VariantMap) ∧ d1 ∩ d2 ≠ ∅) ∧
    unionPairs exStore 2
        (words_pair_combinations [("a", (0, {5, 9}))] [("b", (0, {5, 9}))]) ∅ =
      unionPairs exStore2 2
        (words_pair_combinations [("a", (0, {5, 9}))] [("b", (0, {5, 9}))]) ∅ := by
  have h := claim_C7 [("a", (0, {5, 9}))] [("b", (0, {5, 9}))]
  refine ⟨(h.1 "a" "b").mp (by decide), h.2 ℕ exStore exStore2 2 ∅ ?_⟩
  intro a b hm
  have hl : words_pair_combinations [("a", (0, ({5, 9} : DocSet)))]
      [("b", (0, ({5, 9} : DocSet)))] = [("a", "b")] := by decide
  rw [hl, List.mem_singleton, Prod.mk.injEq] at hm
  obtain ⟨ha, hb⟩ := hm
  subst ha
  subst hb
  rfl

/-- On u32-sized inputs without underflow, `sub32` is plain subtraction. -/
theorem sub32_eq {a b : ℕ} (h : b ≤ a) (ha : a < 2 ^ 32) : sub32 a b = a - b := by
  rw [sub32, Nat.mod_eq_of_lt ha, Nat.mod_eq_of_lt (lt_of_le_of_lt h ha)]
  have hd : a - b < 2 ^ 32 := lt_of_le_of_lt (Nat.sub_le a b) ha
  rw [show 2 ^ 32 + a - b = 2 ^ 32 + (a - b) by omega, Nat.add_mod_left,
    Nat.mod_eq_of_lt hd]

/-- **C5**: in an invocation of `mdfs_step` on a suffix with `children`
remaining pairs strictly after the current pair and budget `mana` (in the
range the iterator can produce: at least `children`, at most
`8 * (children + 1)`, and a u32), the proximities attempted for the current
pair are exactly the integers from `max 1 (mana - 8 * children)` to
`min 8 (mana - children)`, tried in strictly increasing order. -/
theorem claim_C5 (mana : ℕ) (ws : List Slot) (children : ℕ)
    (hch : ws.length = children + 2) (hlow : children ≤ mana)
    (hhigh : mana ≤ 8 * children + 8) (hm32 : mana < 2 ^ 32) :
    (∀ p, p ∈ proxRangeFor mana ws ↔
      max 1 (mana - 8 * children) ≤ p ∧ p ≤ min 8 (mana - children)) ∧
    (proxRangeFor mana ws).Sorted (· < ·) ∧
    proxRangeFor mana ws = List.range' (max 1 (mana - 8 * children))
      (min 8 (mana - children) + 1 - max 1 (mana - 8 * children)) := by
  have hnb : ws.length - 2 = children := by omega
  have hmod : (max 1 (mana - 8 * children)) % 256 = max 1 (mana - 8 * children) :=
    Nat.mod_eq_of_lt (by omega)
  have hs32 : sub32 mana children = mana - children := sub32_eq hlow hm32
  have heq : proxRangeFor mana ws = List.range' (max 1 (mana - 8 * children))
      (min 8 (mana - children) + 1 - max 1 (mana - 8 * children)) := by
    simp only [proxRangeFor, hnb, hmod, hs32]
  refine ⟨?_, ?_, heq⟩
  · intro p
    rw [heq, List.mem_range'_1]
    omega
  · rw [heq]
    exact List.pairwise_lt_range' ..

/-- Witness for C5: two slots (`children = 0`) at mana 1 try exactly the
single proximity 1. -/
theorem claim_C5_witness :
    1 ∈ proxRangeFor 1 exWords ∧ (proxRangeFor 1 exWords).Sorted (· < ·) := by
  have h := claim_C5 1 exWords 0 (by decide) (by decide) (by decide) (by decide)
  exact ⟨(h.1 1).mpr (by decide), h.2.1⟩

/-- **C9**: for calls of `mdfs_step` satisfying the iterator's invariant —
a suffix of at least two slots and `mana ≥` (suffix length − 1), with
u32-sized values — the unchecked u32 subtraction `mana - nb_children` does
not underflow, every proximity in the tried range satisfies
`proximity ≤ mana` so `mana.checked_sub(proximity).unwrap()` cannot panic,
and each recursive call on the tail re-establishes the same precondition
(`mana - proximity ≥ tail length − 1`, still a u32). -/
theorem claim_C9 (mana : ℕ) (ws : List Slot) (hlen : 2 ≤ ws.length)
    (hpre : ws.length - 1 ≤ mana) (hm32 : mana < 2 ^ 32) (hl32 : ws.length ≤ 2 ^ 32) :
    sub32 mana (ws.length - 2) = mana - (ws.length - 2) ∧
    (∀ p ∈ proxRangeFor mana ws, checked_sub mana p = some (mana - p)) ∧
    (∀ p ∈ proxRangeFor mana ws, ws.tail.length - 1 ≤ mana - p ∧ mana - p < 2 ^ 32) := by
  have hnb : ws.length - 2 ≤ mana := by omega
  have hs32 : sub32 mana (ws.length - 2) = mana - (ws.length - 2) := sub32_eq hnb hm32
  have hbound : ∀ p ∈ proxRangeFor mana ws, p ≤ mana - (ws.length - 2) := by
    intro p hp
    simp only [proxRangeFor, hs32] at hp
    rw [List.mem_range'_1] at hp
    omega
  refine ⟨hs32, fun p hp => ?_, fun p hp => ?_⟩
  · have := hbound p hp
    rw [checked_sub, if_pos (by omega)]
  · have := hbound p hp
    rw [List.length_tail]
    omega

/-- Witness for C9: the concrete two-slot suffix at mana 2 (reached by the
iterator right after mana 1 is exhausted): no underflow, no panic, and the
tail precondition holds for the tried proximity 2. -/
theorem claim_C9_witness :
    sub32 2 (exWords.length - 2) = 2 - (exWords.length - 2) ∧
    checked_sub 2 2 = some (2 - 2) ∧
    exWords.tail.length - 1 ≤ 2 - 2 := by
  have h := claim_C9 2 exWords (by decide) (by decide) (by decide) (by decide)
  exact ⟨h.1, h.2.1 2 (by decide), (h.2.2 2 (by decide)).1⟩

/-- Union of the document sets of the `some` events in a log: the part of a
batch assembled from the logged `mdfs_step` successes. -/
def somesUnion (evs : List (ℕ × Option DocSet)) : DocSet :=
  (evs.filterMap (·.2)).foldr (· ∪ ·) ∅

theorem somesUnion_cons_some (m : ℕ) (a : DocSet) (evs : List (ℕ × Option DocSet)) :
    somesUnion ((m, some a) :: evs) = a ∪ somesUnion evs := rfl

theorem somesUnion_cons_none (m : ℕ) (evs : List (ℕ × Option DocSet)) :
    somesUnion ((m, none) :: evs) = somesUnion evs := rfl

/-- The step discipline of the mana loop, read off the event log: after a
successful `mdfs_step` (`some`) the loop re-invokes the search at the same
mana; only after a failed one (`none`) is mana advanced by one. -/
def evStep (a b : ℕ × Option DocSet) : Prop :=
  b.1 = match a.2 with | some _ => a.1 | none => a.1 + 1

theorem getLast?_cons_ne {α : Type} (a : α) {l : List α} (h : l ≠ []) :
    (a :: l).getLast? = l.getLast? := by
  cases l with
  | nil => exact absurd rfl h
  | cons b t => exact List.getLast?_cons_cons ..

/-- Every event log of one `next` call starts at the call's entry mana. -/
theorem mdfsLoop_events_head {ε : Type} (store : Store ε) (words : List Slot)
    (maxMana : ℕ) (fuel : ℕ) (cache : Cache) (cands : DocSet) (mana : ℕ)
    (answer : DocSet) :
    ∀ ev ∈ (mdfsLoop store words maxMana fuel cache cands mana answer).events.head?,
      ev.1 = mana := by
  cases fuel with
  | zero => simp [mdfsLoop]
  | succ n =>
    rw [mdfsLoop]
    split
    · split
      · simp
      · simp
      · split
        · simp
        · simp
    · simp

/-- The event log of one `next` call obeys the mana-step discipline:
same mana after a success, mana + 1 after a failure. -/
theorem mdfsLoop_events_chain {ε : Type} (store : Store ε) (words : List Slot)
    (maxMana : ℕ) : ∀ (fuel : ℕ) (cache : Cache) (cands : DocSet) (mana : ℕ)
    (answer : DocSet),
    List.Chain' evStep (mdfsLoop store words maxMana fuel cache cands mana answer).events := by
  intro fuel
  induction fuel with
  | zero => intro cache cands mana answer; simp [mdfsLoop]
  | succ n ih =>
    intro cache cands mana answer
    rw [mdfsLoop]
    split
    · split
      · simp
      next a cache' heq =>
        simp only []
        rw [List.chain'_cons']
        refine ⟨?_, ih ..⟩
        intro y hy
        have := mdfsLoop_events_head store words maxMana n cache' (cands \ a) mana
          (answer ∪ a) y hy
        simp [evStep, this]
      next cache' heq =>
        split
        · simp only []
          rw [List.chain'_cons']
          refine ⟨?_, ih ..⟩
          intro y hy
          have := mdfsLoop_events_head store words maxMana n cache' cands (mana + 1)
            answer y hy
          simp [evStep, this]
        · simp [evStep]
    · simp

/-- Once the loop holds a non-empty answer at mana `mana ≤ maxMana`, the
batch it returns was completed at that very mana: the exit mana is
`mana + 1`, every further event happens at `mana`, the call ends on a
failed search at `mana`, and the batch is the answer plus the logged
successes. -/
theorem mdfsLoop_batchA {ε : Type} (store : Store ε) (words : List Slot)
    (maxMana : ℕ) : ∀ (fuel : ℕ) (cache : Cache) (cands : DocSet) (mana : ℕ)
    (answer : DocSet) (out : LoopOut ε) (b : DocSet),
    mdfsLoop store words maxMana fuel cache cands mana answer = out →
    answer ≠ ∅ → mana ≤ maxMana → out.res = .batch b →
    out.mana = mana + 1 ∧ (∀ ev ∈ out.events, ev.1 = mana) ∧
    out.events.getLast? = some (mana, none) ∧
    b = answer ∪ somesUnion out.events := by
  intro fuel
  induction fuel with
  | zero =>
    intro cache cands mana answer out b hout hans hle hres
    rw [mdfsLoop] at hout
    subst hout
    simp at hres
  | succ n ih =>
    intro cache cands mana answer out b hout hans hle hres
    rw [mdfsLoop, if_pos hle] at hout
    split at hout
    next e cache' heq => subst hout; simp at hres
    next a cache' heq =>
      subst hout
      simp only at hres ⊢
      have hans' : answer ∪ a ≠ ∅ := by
        intro hc
        exact hans (Finset.union_eq_empty.mp hc).1
      obtain ⟨h1, h2, h3, h4⟩ := ih cache' (cands \ a) mana (answer ∪ a) _ b rfl hans' hle hres
      have hne : (mdfsLoop store words maxMana n cache' (cands \ a) mana (answer ∪ a)).events ≠ [] := by
        intro hnil
        rw [hnil] at h3
        simp at h3
      refine ⟨h1, ?_, ?_, ?_⟩
      · intro ev hev
        rcases List.mem_cons.mp hev with h | h
        · subst h; rfl
        · exact h2 ev h
      · rw [getLast?_cons_ne _ hne]
        exact h3
      · rw [somesUnion_cons_some, h4, Finset.union_assoc]
    next cache' heq =>
      split at hout
      next hemp => exact absurd hemp hans
      next hemp =>
        subst hout
        simp only at hres ⊢
        rw [NextRes.batch.injEq] at hres
        subst hres
        refine ⟨by simp, ?_, by simp, ?_⟩
        · intro ev hev
          rcases List.mem_cons.mp hev with h | h
          · subst h; rfl
          · simp at h
        · rw [somesUnion_cons_none]
          simp [somesUnion]

/-- What a batch of one `next` call (entered, as in the code, with an empty
answer) satisfies: all its documents were found by searches at the single
mana value `exit mana − 1`, which lies between the entry mana and
`maxMana`; the call ends on a failed search at that mana; and the batch is
exactly the union of the logged successes. -/
theorem mdfsLoop_batchB {ε : Type} (store : Store ε) (words : List Slot)
    (maxMana : ℕ) : ∀ (fuel : ℕ) (cache : Cache) (cands : DocSet) (mana : ℕ)
    (out : LoopOut ε) (b : DocSet),
    mdfsLoop store words maxMana fuel cache cands mana ∅ = out →
    out.res = .batch b →
    mana + 1 ≤ out.mana ∧ out.mana - 1 ≤ maxMana ∧
    (∀ ev ∈ out.events, ev.2.isSome = true → ev.1 = out.mana - 1) ∧
    out.events.getLast? = some (out.mana - 1, none) ∧
    b = somesUnion out.events := by
  intro fuel
  induction fuel with
  | zero =>
    intro cache cands mana out b hout hres
    rw [mdfsLoop] at hout
    subst hout
    simp at hres
  | succ n ih =>
    intro cache cands mana out b hout hres
    rw [mdfsLoop] at hout
    split at hout
    next hle =>
      split at hout
      next e cache' heq => subst hout; simp at hres
      next a cache' heq =>
        subst hout
        simp only at hres ⊢
        have hane : (∅ : DocSet) ∪ a ≠ ∅ := by
          obtain ⟨-, hne⟩ := mdfs_step_some_sub heq
          simpa using hne
        obtain ⟨h1, h2, h3, h4⟩ := mdfsLoop_batchA store words maxMana n cache'
          (cands \ a) mana (∅ ∪ a) _ b rfl hane hle hres
        have hne : (mdfsLoop store words maxMana n cache' (cands \ a) mana (∅ ∪ a)).events ≠ [] := by
          intro hnil
          rw [hnil] at h3
          simp at h3
        rw [h1]
        refine ⟨le_refl _, by omega, ?_, ?_, ?_⟩
        · intro ev hev _
          rcases List.mem_cons.mp hev with h | h
          · subst h; simp
          · simp [h2 ev h]
        · rw [getLast?_cons_ne _ hne, h3]
          simp
        · rw [somesUnion_cons_some, h4]
          simp
      next cache' heq =>
        split at hout
        next hemp =>
          subst hout
          simp only at hres ⊢
          obtain ⟨h1, h2, h3, h4, h5⟩ := ih cache' cands (mana + 1) _ b rfl hres
          have hne : (mdfsLoop store words maxMana n cache' cands (mana + 1) ∅).events ≠ [] := by
            intro hnil
            rw [hnil] at h4
            simp at h4
          refine ⟨by omega, h2, ?_, ?_, ?_⟩
          · intro ev hev hsome
            rcases List.mem_cons.mp hev with h | h
            · subst h; simp at hsome
            · exact h3 ev h hsome
          · rw [getLast?_cons_ne _ hne]
            exact h4
          · rw [somesUnion_cons_none]
            exact h5
        next hemp => exact absurd rfl hemp
    next hle => subst hout; simp at hres

/-- Run-level iterative-deepening discipline (for at least two slots):
every batch-yielding call discovered its whole batch at the single mana
value `manaAfter − 1`, bounded by the entry mana and `maxMana`; discovery
manas strictly increase from call to call; and every event log obeys the
mana-step discipline. -/
theorem mdfsRun_events_spec {ε : Type} (store : Store ε) (words : List Slot)
    (maxMana innerFuel : ℕ) (hwords : 2 ≤ words.length) :
    ∀ (outerFuel : ℕ) (cache : Cache) (cands : DocSet) (mana : ℕ) (r : RunOut ε),
    mdfsRun store words maxMana innerFuel outerFuel cache cands mana = r →
    (∀ c ∈ r.calls,
      mana + 1 ≤ c.manaAfter ∧ c.manaAfter - 1 ≤ maxMana ∧
      (∀ ev ∈ c.events, ev.2.isSome = true → ev.1 = c.manaAfter - 1) ∧
      c.events.getLast? = some (c.manaAfter - 1, none) ∧
      c.batch = somesUnion c.events ∧
      List.Chain' evStep c.events) ∧
    r.calls.Chain' (fun c c' => c.manaAfter - 1 < c'.manaAfter - 1) ∧
    List.Chain' evStep r.tailEvents := by
  have hnext : ∀ (f : ℕ) (c : Cache) (cs : DocSet) (m : ℕ),
      mdfsNext store words maxMana f c cs m = mdfsLoop store words maxMana f c cs m ∅ := by
    intro f c cs m
    rw [mdfsNext, if_neg (by omega)]
  intro outerFuel
  induction outerFuel with
  | zero =>
    intro cache cands mana r hr
    rw [mdfsRun] at hr
    subst hr
    simp
  | succ fo ih =>
    intro cache cands mana r hr
    rw [mdfsRun] at hr
    rw [hnext] at hr
    split at hr
    next b hres =>
      obtain ⟨hm1, hm2, hev, hlast, hbat⟩ :=
        mdfsLoop_batchB store words maxMana innerFuel cache cands mana _ b rfl hres
      have hchain := mdfsLoop_events_chain store words maxMana innerFuel cache cands mana ∅
      set out := mdfsLoop store words maxMana innerFuel cache cands mana ∅ with hdefout
      obtain ⟨ih1, ih2, ih3⟩ := ih out.cache out.candidates out.mana _ rfl
      subst hr
      refine ⟨?_, ?_, ih3⟩
      · intro c hc
        rcases List.mem_cons.mp hc with h | h
        · subst h
          exact ⟨hm1, hm2, hev, hlast, hbat, hchain⟩
        · obtain ⟨k1, k2, k3, k4, k5, k6⟩ := ih1 c h
          exact ⟨by omega, k2, k3, k4, k5, k6⟩
      · simp only
        rw [List.chain'_cons']
        refine ⟨?_, ih2⟩
        intro c' hc'
        have hmem := List.mem_of_mem_head? hc'
        obtain ⟨k1, _⟩ := ih1 c' hmem
        simp only
        omega
    next e hres =>
      subst hr
      exact ⟨by simp, by simp, mdfsLoop_events_chain ..⟩
    next hres =>
      subst hr
      exact ⟨by simp, by simp, mdfsLoop_events_chain ..⟩
    next hres =>
      subst hr
      exact ⟨by simp, by simp, mdfsLoop_events_chain ..⟩

/-- **C3**: for a slot sequence of length `n ≥ 2`, batches are yielded in
strictly increasing mana order.  Reading `c.manaAfter − 1` as the mana at
which a call's batch was discovered (the loop advances mana exactly once,
on the final failed search, before returning the batch): every document of
a batch was found by searches at that single mana value (every logged
success of the call happened at it, and the batch is exactly the union of
the logged successes); the value is at least `n − 1` and at most
`8·(n − 1)`; it strictly increases from each yielded batch to the next;
and, per the event-step discipline, at a fixed mana the search is re-invoked
after every success and mana is advanced by 1 only after a search finds
nothing. -/
theorem claim_C3 {ε : Type} (store : Store ε) (words : List Slot) (cands : DocSet)
    (innerFuel outerFuel : ℕ) (r : RunOut ε) (n : ℕ)
    (hn : words.length = n) (hn2 : 2 ≤ n)
    (hr : mdfsRunNew store words cands innerFuel outerFuel = r) :
    (∀ c ∈ r.calls,
      n - 1 ≤ c.manaAfter - 1 ∧ c.manaAfter - 1 ≤ 8 * (n - 1) ∧
      (∀ ev ∈ c.events, ev.2.isSome = true → ev.1 = c.manaAfter - 1) ∧
      c.batch = somesUnion c.events ∧
      c.events.getLast? = some (c.manaAfter - 1, none) ∧
      List.Chain' evStep c.events) ∧
    r.calls.Chain' (fun c c' => c.manaAfter - 1 < c'.manaAfter - 1) ∧
    List.Chain' evStep r.tailEvents := by
  subst hn
  obtain ⟨h1, h2, h3⟩ := mdfsRun_events_spec store words (mdfsMaxMana words) innerFuel
    hn2 outerFuel [] cands (mdfsInitMana words) r hr
  refine ⟨?_, h2, h3⟩
  intro c hc
  obtain ⟨k1, k2, k3, k4, k5, k6⟩ := h1 c hc
  rw [mdfsInitMana] at k1
  rw [mdfsMaxMana] at k2
  exact ⟨by omega, by omega, k3, k5, k4, k6⟩

/-- Witness for C3 on the concrete two-slot run: its two batches were
discovered at manas 2 and 3 (strictly increasing, within `[1, 8]`), each
batch is the union of its call's logged successes, and the logs obey the
step discipline. -/
theorem claim_C3_witness :
    ((exRun.calls.getD 0 ⟨∅, ∅, 0, []⟩).batch =
      somesUnion (exRun.calls.getD 0 ⟨∅, ∅, 0, []⟩).events) ∧
    exRun.calls.Chain' (fun c c' => c.manaAfter - 1 < c'.manaAfter - 1) ∧
    2 - 1 ≤ (exRun.calls.getD 0 ⟨∅, ∅, 0, []⟩).manaAfter - 1 := by
  obtain ⟨h1, h2, h3⟩ := claim_C3 exStore exWords exCands 40 10 exRun 2 (by decide)
    (by decide) rfl
  have hmem : exRun.calls.getD 0 ⟨∅, ∅, 0, []⟩ ∈ exRun.calls := by decide
  obtain ⟨k1, _, _, k4, _, _⟩ := h1 _ hmem
  exact ⟨k4, h2, k1⟩

/-! ### Cache-free comparison variant (claim C10)

The following `..._nc` definitions are the comparison point the claim
describes: the same search in which `mdfs_step` recomputes the document set
fresh on every visit instead of consulting `union_cache`.  They follow the
cached definitions line by line with the cache removed. -/

/-- Modelled from the claim: `mdfs_go` with the `union_cache` removed — the
`Vacant` computation (`headDocids`) is performed on every visit. -/
def mdfs_go_nc {ε : Type} (store : Store ε) :
    (fuel : ℕ) → (ws : List Slot) → (mana : ℕ) → (proxs : List ℕ) →
    (candidates parent_docids : DocSet) → Except ε (Option DocSet)
  | 0, _, _, _, _, _ => .ok none
  | _ + 1, _ :: _ :: _, _, [], _, _ => .ok none
  | fuel + 1, w1 :: w2 :: rest, mana, p :: ps, candidates, parent_docids =>
    match headDocids store (headPairs (w1 :: w2 :: rest)) p candidates with
    | .error e => .error e
    | .ok d =>
      let docids := d ∩ parent_docids
      if docids = ∅ then
        mdfs_go_nc store fuel (w1 :: w2 :: rest) mana ps candidates parent_docids
      else
        match checked_sub mana p with
        | none => .ok none
        | some mana1 =>
          if rest.length < 1 then .ok (some docids)
          else
            match mdfs_go_nc store fuel (w2 :: rest) mana1 (proxRangeFor mana1 (w2 :: rest))
                candidates docids with
            | .error e => .error e
            | .ok (some di) => .ok (some di)
            | .ok none => mdfs_go_nc store fuel (w1 :: w2 :: rest) mana ps candidates parent_docids
  | _ + 1, _, _, _, _, _ => .ok none

/-- Modelled from the claim: cache-free `mdfs_step`. -/
def mdfs_step_nc {ε : Type} (store : Store ε) (mana : ℕ) (words : List Slot)
    (candidates parent_docids : DocSet) : Except ε (Option DocSet) :=
  mdfs_go_nc store (words.length * 10 + 10) words mana (proxRangeFor mana words)
    candidates parent_docids

/-- Outcome of one cache-free `next` call. -/
structure LoopOutNc (ε : Type) where
  res : NextRes ε
  candidates : DocSet
  mana : ℕ
  events : List (ℕ × Option DocSet)
deriving DecidableEq

/-- Modelled from the claim: the `next` loop over the cache-free step. -/
def mdfsLoop_nc {ε : Type} (store : Store ε) (words : List Slot) (maxMana : ℕ) :
    (fuel : ℕ) → DocSet → ℕ → DocSet → LoopOutNc ε
  | 0, cands, mana, _ => ⟨.outOfFuel, cands, mana, []⟩
  | fuel + 1, cands, mana, answer =>
    if mana ≤ maxMana then
      match mdfs_step_nc store mana words cands cands with
      | .error e => ⟨.fail e, cands, mana, []⟩
      | .ok (some a) =>
        let out := mdfsLoop_nc store words maxMana fuel (cands \ a) mana (answer ∪ a)
        { out with events := (mana, some a) :: out.events }
      | .ok none =>
        if answer = ∅ then
          let out := mdfsLoop_nc store words maxMana fuel cands (mana + 1) answer
          { out with events := (mana, none) :: out.events }
        else ⟨.batch answer, cands, mana + 1, [(mana, none)]⟩
    else ⟨.exhausted, cands, mana, []⟩

/-- Modelled from the claim: cache-free `next`. -/
def mdfsNextNc {ε : Type} (store : Store ε) (words : List Slot) (maxMana : ℕ)
    (fuel : ℕ) (cands : DocSet) (mana : ℕ) : LoopOutNc ε :=
  if words.length ≤ 1 then
    if cands = ∅ then ⟨.exhausted, cands, mana, []⟩
    else ⟨.batch cands, ∅, mana, []⟩
  else mdfsLoop_nc store words maxMana fuel cands mana ∅

/-- A whole cache-free run. -/
structure RunOutNc (ε : Type) where
  calls : List CallInfo
  res : RunEnd ε
  candidates : DocSet
  mana : ℕ
  tailEvents : List (ℕ × Option DocSet)
deriving DecidableEq

/-- Modelled from the claim: the cache-free run driver. -/
def mdfsRun_nc {ε : Type} (store : Store ε) (words : List Slot) (maxMana innerFuel : ℕ) :
    (outerFuel : ℕ) → DocSet → ℕ → RunOutNc ε
  | 0, cands, mana => ⟨[], .outOfFuel, cands, mana, []⟩
  | fo + 1, cands, mana =>
    let out := mdfsNextNc store words maxMana innerFuel cands mana
    match out.res with
    | .batch b =>
      let r := mdfsRun_nc store words maxMana innerFuel fo out.candidates out.mana
      { r with calls := ⟨b, out.candidates, out.mana, out.events⟩ :: r.calls }
    | .fail e => ⟨[], .fail e, out.candidates, out.mana, out.events⟩
    | .exhausted => ⟨[], .done, out.candidates, out.mana, out.events⟩
    | .outOfFuel => ⟨[], .outOfFuel, out.candidates, out.mana, out.events⟩

/-- Modelled from the claim: a whole cache-free run from a fresh iterator. -/
def mdfsRunNew_nc {ε : Type} (store : Store ε) (words : List Slot) (cands : DocSet)
    (innerFuel outerFuel : ℕ) : RunOutNc ε :=
  mdfsRun_nc store words (mdfsMaxMana words) innerFuel outerFuel cands (mdfsInitMana words)

/-- The suffix of the full slot sequence with `L` remaining slots — what a
cache key's first component `(words.len(), _)` denotes, since all suffixes
arising in one search are suffixes of the one fixed sequence. -/
def suffixFor (words : List Slot) (L : ℕ) : List Slot :=
  words.drop (words.length - L)

/-- Validity of one cache entry `(L, p) ↦ d` with respect to the current
candidate set: a proximity-8 entry is a snapshot of some earlier (hence no
smaller) candidate set; any other entry is exactly the per-pair store union
for the suffix with `L` slots at proximity `p`. -/
def cacheEntryOK {ε : Type} (store : Store ε) (words : List Slot) (cands : DocSet) :
    (ℕ × ℕ) × DocSet → Prop
  | ((L, p), d) =>
    if p = 8 then cands ⊆ d
    else unionPairs store p (headPairs (suffixFor words L)) ∅ = .ok d

/-- Every entry of the cache is valid. -/
def CacheOK {ε : Type} (store : Store ε) (words : List Slot) (cands : DocSet)
    (cache : Cache) : Prop :=
  ∀ entry ∈ cache, cacheEntryOK store words cands entry

/-- Cache validity survives shrinking the candidate set (the proximity-8
snapshots only need to be supersets). -/
theorem CacheOK_mono {ε : Type} {store : Store ε} {words : List Slot}
    {cands cands' : DocSet} {cache : Cache} (h : CacheOK store words cands cache)
    (hsub : cands' ⊆ cands) : CacheOK store words cands' cache := by
  intro entry hmem
  have he := h entry hmem
  obtain ⟨⟨L, p⟩, d⟩ := entry
  rw [cacheEntryOK] at he ⊢
  by_cases h8 : p = 8
  · rw [if_pos h8] at he ⊢
    exact hsub.trans he
  · rw [if_neg h8] at he ⊢
    exact he

/-- A suffix of the full sequence is recovered from its length. -/
theorem suffixFor_eq {words ws : List Slot} (h : ws <:+ words) :
    suffixFor words ws.length = ws := by
  obtain ⟨t, rfl⟩ := h
  rw [suffixFor, List.length_append, Nat.add_sub_cancel, List.drop_left]

/-- A successful cache lookup returns an entry of the cache. -/
theorem cacheFind_mem {c : Cache} {k : ℕ × ℕ} {d : DocSet}
    (h : cacheFind c k = some d) : (k, d) ∈ c := by
  rw [cacheFind] at h
  rw [Option.map_eq_some'] at h
  obtain ⟨entry, hfind, hval⟩ := h
  have hmem := List.mem_of_find?_eq_some hfind
  have hpred := List.find?_some hfind
  rw [decide_eq_true_eq] at hpred
  have : (k, d) = entry := by
    obtain ⟨k', d'⟩ := entry
    simp only at hpred hval
    rw [hpred, hval]
  rw [this]
  exact hmem

/-- Decomposition of the `Occupied`/`Vacant` probe on success. -/
theorem probe_ok_cases {ε : Type} (store : Store ε) (cache : Cache) (key : ℕ × ℕ)
    (pairs : List (String × String)) (p : ℕ) (cands : DocSet) (d : DocSet) (cache1 : Cache)
    (h : (match cacheFind cache key with
      | some d => Except.ok (d, cache)
      | none =>
        match headDocids store pairs p cands with
        | .error e => Except.error e
        | .ok d => Except.ok (d, cacheInsert cache key d)) = Except.ok (d, cache1)) :
    (cacheFind cache key = some d ∧ cache1 = cache) ∨
    (cacheFind cache key = none ∧ headDocids store pairs p cands = .ok d ∧
      cache1 = cacheInsert cache key d) := by
  cases hcf : cacheFind cache key with
  | some d0 =>
    rw [hcf] at h
    simp only [Except.ok.injEq, Prod.mk.injEq] at h
    obtain ⟨h1, h2⟩ := h
    subst h1
    exact Or.inl ⟨rfl, h2.symm⟩
  | none =>
    rw [hcf] at h
    cases hhd : headDocids store pairs p cands with
    | error e => rw [hhd] at h; simp at h
    | ok d0 =>
      rw [hhd] at h
      simp only [Except.ok.injEq, Prod.mk.injEq] at h
      obtain ⟨h1, h2⟩ := h
      subst h1
      exact Or.inr ⟨rfl, rfl, h2.symm⟩

/-- Decomposition of the probe on failure: errors come only from a fresh
`headDocids` computation, the cache untouched. -/
theorem probe_error_cases {ε : Type} (store : Store ε) (cache : Cache) (key : ℕ × ℕ)
    (pairs : List (String × String)) (p : ℕ) (cands : DocSet) (e : ε)
    (h : (match cacheFind cache key with
      | some d => Except.ok (d, cache)
      | none =>
        match headDocids store pairs p cands with
        | .error e => Except.error e
        | .ok d => Except.ok (d, cacheInsert cache key d)) =
      (Except.error e : Except ε (DocSet × Cache))) :
    cacheFind cache key = none ∧ headDocids store pairs p cands = .error e := by
  cases hcf : cacheFind cache key with
  | some d0 => rw [hcf] at h; simp at h
  | none =>
    rw [hcf] at h
    cases hhd : headDocids store pairs p cands with
    | error e0 =>
      rw [hhd] at h
      simp only [Except.error.injEq] at h
      exact ⟨rfl, by rw [h]⟩
    | ok d0 => rw [hhd] at h; simp at h

/-- Proximity 8 head computation (the sentinel). -/
theorem headDocids_eight {ε : Type} (store : Store ε) (pairs : List (String × String))
    (cands : DocSet) : headDocids store pairs 8 cands = .ok cands := by
  simp [headDocids]

/-- Analysis of a successful probe under cache validity: the fresh
computation (`headDocids`) succeeds with a set whose intersection with the
parent set coincides with the probed set's — for proximity 8 because the
cached snapshot and the candidate set both contain the parent set, for
other proximities because the cached set is exactly the fresh union — and
the cache stays valid. -/
theorem probe_ok_analysis {ε : Type} (store : Store ε) (words : List Slot)
    (ws : List Slot) (p : ℕ) (cands parent : DocSet) (cache cache1 : Cache) (d : DocSet)
    (hsuffix : ws <:+ words) (hparent : parent ⊆ cands)
    (hcache : CacheOK store words cands cache)
    (h : (match cacheFind cache (ws.length, p) with
      | some d => Except.ok (d, cache)
      | none =>
        match headDocids store (headPairs ws) p cands with
        | .error e => Except.error e
        | .ok d => Except.ok (d, cacheInsert cache (ws.length, p) d)) =
      Except.ok (d, cache1)) :
    ∃ dnc, headDocids store (headPairs ws) p cands = .ok dnc ∧
      dnc ∩ parent = d ∩ parent ∧ CacheOK store words cands cache1 := by
  rcases probe_ok_cases store cache (ws.length, p) (headPairs ws) p cands d cache1 h with
    ⟨hcf, rfl⟩ | ⟨hcf, hhd, rfl⟩
  · have he := hcache _ (cacheFind_mem hcf)
    rw [cacheEntryOK] at he
    by_cases h8 : p = 8
    · subst h8
      rw [if_pos rfl] at he
      refine ⟨cands, headDocids_eight .., ?_, hcache⟩
      rw [Finset.inter_eq_right.mpr hparent, Finset.inter_eq_right.mpr (hparent.trans he)]
    · rw [if_neg h8] at he
      rw [suffixFor_eq hsuffix] at he
      refine ⟨d, ?_, rfl, hcache⟩
      rw [headDocids, if_neg h8]
      exact he
  · refine ⟨d, hhd, rfl, ?_⟩
    intro entry hmem
    rcases List.mem_cons.mp hmem with hnew | hold
    · subst hnew
      rw [cacheEntryOK]
      by_cases h8 : p = 8
      · subst h8
        rw [if_pos rfl]
        rw [headDocids_eight] at hhd
        have : cands = d := by
          rw [Except.ok.injEq] at hhd
          exact hhd
        rw [← this]
      · rw [if_neg h8, suffixFor_eq hsuffix]
        rw [headDocids, if_neg h8] at hhd
        exact hhd
    · exact hcache entry hold

/-- Core of claim C10: under a valid cache, `mdfs_go` returns exactly what
the cache-free `mdfs_go_nc` returns, and leaves the cache valid.  The only
interesting cases are cache hits: a `< 8` entry is the very union the fresh
computation would produce, and an `8` entry is a stale superset of the
candidate set whose intersection with the parent set is the parent set —
the same as intersecting with the current candidates. -/
theorem mdfs_go_cache_equiv {ε : Type} (store : Store ε) (words : List Slot)
    (fuel : ℕ) (ws : List Slot) (mana : ℕ) (proxs : List ℕ)
    (cands parent_docids : DocSet) (cache : Cache) :
    ws <:+ words → parent_docids ⊆ cands → CacheOK store words cands cache →
    (mdfs_go store fuel ws mana proxs cands parent_docids cache).1 =
      mdfs_go_nc store fuel ws mana proxs cands parent_docids ∧
    CacheOK store words cands (mdfs_go store fuel ws mana proxs cands parent_docids cache).2 := by
  induction fuel, ws, mana, proxs, cands, parent_docids, cache using mdfs_go.induct store with
  | case1 cache =>
    intro _ _ hcache
    exact ⟨rfl, hcache⟩
  | case2 fuel w1 w2 rest mana candidates parent_docids cache =>
    intro _ _ hcache
    exact ⟨rfl, hcache⟩
  | case3 fuel w1 w2 rest mana p ps candidates parent_docids cache probe e hprobe =>
    intro hsuffix hparent hcache
    unfold probe at hprobe
    obtain ⟨hcf, hhd⟩ := probe_error_cases store cache ((w1 :: w2 :: rest).length, p)
      (headPairs (w1 :: w2 :: rest)) p candidates e hprobe
    simp only [mdfs_go, mdfs_go_nc]
    rw [hprobe, hhd]
    exact ⟨rfl, hcache⟩
  | case4 fuel w1 w2 rest mana p ps candidates parent_docids cache probe d0 cache1 hprobe docids hemp ih =>
    intro hsuffix hparent hcache
    unfold probe at hprobe
    obtain ⟨dnc, hd_nc, hint, hcache1⟩ := probe_ok_analysis store words (w1 :: w2 :: rest)
      p candidates parent_docids cache cache1 d0 hsuffix hparent hcache hprobe
    simp only [mdfs_go, mdfs_go_nc]
    rw [hprobe, hd_nc]
    dsimp only
    simp only [docids] at hemp
    rw [if_pos hemp, hint, if_pos hemp]
    exact ih hsuffix hparent hcache1
  | case5 fuel w1 w2 rest mana p ps candidates parent_docids cache probe d0 cache1 hprobe docids hemp hsub =>
    intro hsuffix hparent hcache
    unfold probe at hprobe
    obtain ⟨dnc, hd_nc, hint, hcache1⟩ := probe_ok_analysis store words (w1 :: w2 :: rest)
      p candidates parent_docids cache cache1 d0 hsuffix hparent hcache hprobe
    simp only [mdfs_go, mdfs_go_nc]
    rw [hprobe, hd_nc]
    dsimp only
    simp only [docids] at hemp
    rw [if_neg hemp, hint, if_neg hemp, hsub]
    exact ⟨rfl, hcache1⟩
  | case6 fuel w1 w2 rest mana p ps candidates parent_docids cache probe d0 cache1 hprobe docids hemp mana1 hsub hlen =>
    intro hsuffix hparent hcache
    unfold probe at hprobe
    obtain ⟨dnc, hd_nc, hint, hcache1⟩ := probe_ok_analysis store words (w1 :: w2 :: rest)
      p candidates parent_docids cache cache1 d0 hsuffix hparent hcache hprobe
    simp only [mdfs_go, mdfs_go_nc]
    rw [hprobe, hd_nc]
    dsimp only
    simp only [docids] at hemp
    rw [if_neg hemp, hint, if_neg hemp, hsub]
    dsimp only
    rw [if_pos hlen, if_pos hlen]
    exact ⟨rfl, hcache1⟩
  | case7 fuel w1 w2 rest mana p ps candidates parent_docids cache probe d0 cache1 hprobe docids hemp mana1 hsub hlen e cache2 hrec ih =>
    intro hsuffix hparent hcache
    unfold probe at hprobe
    obtain ⟨dnc, hd_nc, hint, hcache1⟩ := probe_ok_analysis store words (w1 :: w2 :: rest)
      p candidates parent_docids cache cache1 d0 hsuffix hparent hcache hprobe
    have hsuffix' : (w2 :: rest) <:+ words := (List.tail_suffix (w1 :: w2 :: rest)).trans hsuffix
    have hparent' : d0 ∩ parent_docids ⊆ candidates :=
      Finset.inter_subset_right.trans hparent
    simp only [docids] at hemp hrec ih
    obtain ⟨ihe, ihc⟩ := ih hsuffix' hparent' hcache1
    rw [hrec] at ihe ihc
    simp only [mdfs_go, mdfs_go_nc]
    rw [hprobe, hd_nc]
    dsimp only
    rw [if_neg hemp, hint, if_neg hemp, hsub]
    dsimp only
    rw [if_neg hlen, if_neg hlen, hrec, ← ihe]
    exact ⟨rfl, ihc⟩
  | case8 fuel w1 w2 rest mana p ps candidates parent_docids cache probe d0 cache1 hprobe docids hemp mana1 hsub hlen di cache2 hrec ih =>
    intro hsuffix hparent hcache
    unfold probe at hprobe
    obtain ⟨dnc, hd_nc, hint, hcache1⟩ := probe_ok_analysis store words (w1 :: w2 :: rest)
      p candidates parent_docids cache cache1 d0 hsuffix hparent hcache hprobe
    have hsuffix' : (w2 :: rest) <:+ words := (List.tail_suffix (w1 :: w2 :: rest)).trans hsuffix
    have hparent' : d0 ∩ parent_docids ⊆ candidates :=
      Finset.inter_subset_right.trans hparent
    simp only [docids] at hemp hrec ih
    obtain ⟨ihe, ihc⟩ := ih hsuffix' hparent' hcache1
    rw [hrec] at ihe ihc
    simp only [mdfs_go, mdfs_go_nc]
    rw [hprobe, hd_nc]
    dsimp only
    rw [if_neg hemp, hint, if_neg hemp, hsub]
    dsimp only
    rw [if_neg hlen, if_neg hlen, hrec, ← ihe]
    exact ⟨rfl, ihc⟩
  | case9 fuel w1 w2 rest mana p ps candidates parent_docids cache probe d0 cache1 hprobe docids hemp mana1 hsub hlen cache2 hrec ih1 ih2 =>
    intro hsuffix hparent hcache
    unfold probe at hprobe
    obtain ⟨dnc, hd_nc, hint, hcache1⟩ := probe_ok_analysis store words (w1 :: w2 :: rest)
      p candidates parent_docids cache cache1 d0 hsuffix hparent hcache hprobe
    have hsuffix' : (w2 :: rest) <:+ words := (List.tail_suffix (w1 :: w2 :: rest)).trans hsuffix
    have hparent' : d0 ∩ parent_docids ⊆ candidates :=
      Finset.inter_subset_right.trans hparent
    simp only [docids] at hemp hrec ih1 ih2
    obtain ⟨ihe, ihc⟩ := ih1 hsuffix' hparent' hcache1
    rw [hrec] at ihe ihc
    obtain ⟨ihe2, ihc2⟩ := ih2 hsuffix hparent ihc
    simp only [mdfs_go, mdfs_go_nc]
    rw [hprobe, hd_nc]
    dsimp only
    rw [if_neg hemp, hint, if_neg hemp, hsub]
    dsimp only
    rw [if_neg hlen, if_neg hlen, hrec, ← ihe]
    exact ⟨ihe2, ihc2⟩
  | case10 fuel ws mana proxs candidates parent_docids cache hne1 hne2 =>
    intro _ _ hcache
    match ws, proxs with
    | [], _ => exact ⟨rfl, hcache⟩
    | [w], _ => exact ⟨rfl, hcache⟩
    | w1 :: w2 :: rest, [] => exact (hne1 w1 w2 rest rfl rfl).elim
    | w1 :: w2 :: rest, p :: ps => exact (hne2 w1 w2 rest p ps rfl rfl).elim

/-- Step-level corollary of the cache equivalence, at the arguments the
iterator uses (`parent_docids = candidates`, suffix = the full sequence). -/
theorem mdfs_step_cache_equiv {ε : Type} (store : Store ε) (words : List Slot)
    (mana : ℕ) (cands : DocSet) (cache : Cache)
    (hcache : CacheOK store words cands cache) :
    (mdfs_step store mana words cands cands cache).1 =
      mdfs_step_nc store mana words cands cands ∧
    CacheOK store words cands (mdfs_step store mana words cands cands cache).2 :=
  mdfs_go_cache_equiv store words (words.length * 10 + 10) words mana
    (proxRangeFor mana words) cands cands cache (List.suffix_refl words)
    (le_refl _) hcache

/-- Loop-level cache equivalence: starting any `next` call's loop from a
valid cache, the observable outcome (result, remaining candidates, mana,
event log) equals the cache-free loop's, and the cache it leaves is valid
for the candidates it leaves. -/
theorem mdfsLoop_cache_equiv {ε : Type} (store : Store ε) (words : List Slot)
    (maxMana : ℕ) : ∀ (fuel : ℕ) (cache : Cache) (cands : DocSet) (mana : ℕ)
    (answer : DocSet), CacheOK store words cands cache →
    (mdfsLoop store words maxMana fuel cache cands mana answer).res =
      (mdfsLoop_nc store words maxMana fuel cands mana answer).res ∧
    (mdfsLoop store words maxMana fuel cache cands mana answer).candidates =
      (mdfsLoop_nc store words maxMana fuel cands mana answer).candidates ∧
    (mdfsLoop store words maxMana fuel cache cands mana answer).mana =
      (mdfsLoop_nc store words maxMana fuel cands mana answer).mana ∧
    (mdfsLoop store words maxMana fuel cache cands mana answer).events =
      (mdfsLoop_nc store words maxMana fuel cands mana answer).events ∧
    CacheOK store words (mdfsLoop store words maxMana fuel cache cands mana answer).candidates
      (mdfsLoop store words maxMana fuel cache cands mana answer).cache := by
  intro fuel
  induction fuel with
  | zero =>
    intro cache cands mana answer hcache
    rw [mdfsLoop, mdfsLoop_nc]
    exact ⟨rfl, rfl, rfl, rfl, hcache⟩
  | succ n ih =>
    intro cache cands mana answer hcache
    rw [mdfsLoop, mdfsLoop_nc]
    by_cases hle : mana ≤ maxMana
    · rw [if_pos hle, if_pos hle]
      obtain ⟨hstep, hcache'⟩ := mdfs_step_cache_equiv store words mana cands cache hcache
      cases hs : mdfs_step store mana words cands cands cache with
      | mk r cache1 =>
        rw [hs] at hstep hcache'
        simp only at hstep hcache'
        rw [← hstep]
        cases r with
        | error e => exact ⟨rfl, rfl, rfl, rfl, hcache'⟩
        | ok o =>
          cases o with
          | some a =>
            dsimp only
            obtain ⟨k1, k2, k3, k4, k5⟩ := ih cache1 (cands \ a) mana (answer ∪ a)
              (CacheOK_mono hcache' Finset.sdiff_subset)
            exact ⟨k1, k2, k3, by rw [k4], k5⟩
          | none =>
            dsimp only
            by_cases hans : answer = ∅
            · rw [if_pos hans, if_pos hans]
              dsimp only
              obtain ⟨k1, k2, k3, k4, k5⟩ := ih cache1 cands (mana + 1) answer hcache'
              exact ⟨k1, k2, k3, by rw [k4], k5⟩
            · rw [if_neg hans, if_neg hans]
              exact ⟨rfl, rfl, rfl, rfl, hcache'⟩
    · rw [if_neg hle, if_neg hle]
      exact ⟨rfl, rfl, rfl, rfl, hcache⟩

/-- `next`-level cache equivalence, covering the `words.len() <= 1`
shortcut as well. -/
theorem mdfsNext_cache_equiv {ε : Type} (store : Store ε) (words : List Slot)
    (maxMana fuel : ℕ) (cache : Cache) (cands : DocSet) (mana : ℕ)
    (hcache : CacheOK store words cands cache) :
    (mdfsNext store words maxMana fuel cache cands mana).res =
      (mdfsNextNc store words maxMana fuel cands mana).res ∧
    (mdfsNext store words maxMana fuel cache cands mana).candidates =
      (mdfsNextNc store words maxMana fuel cands mana).candidates ∧
    (mdfsNext store words maxMana fuel cache cands mana).mana =
      (mdfsNextNc store words maxMana fuel cands mana).mana ∧
    (mdfsNext store words maxMana fuel cache cands mana).events =
      (mdfsNextNc store words maxMana fuel cands mana).events ∧
    CacheOK store words (mdfsNext store words maxMana fuel cache cands mana).candidates
      (mdfsNext store words maxMana fuel cache cands mana).cache := by
  rw [mdfsNext, mdfsNextNc]
  by_cases hw : words.length ≤ 1
  · rw [if_pos hw, if_pos hw]
    by_cases hemp : cands = ∅
    · rw [if_pos hemp, if_pos hemp]
      exact ⟨rfl, rfl, rfl, rfl, hcache⟩
    · rw [if_neg hemp, if_neg hemp]
      exact ⟨rfl, rfl, rfl, rfl, CacheOK_mono hcache (Finset.empty_subset _)⟩
  · rw [if_neg hw, if_neg hw]
    exact mdfsLoop_cache_equiv store words maxMana fuel cache cands mana ∅ hcache

/-- Run-level cache equivalence from a valid cache. -/
theorem mdfsRun_cache_equiv {ε : Type} (store : Store ε) (words : List Slot)
    (maxMana innerFuel : ℕ) : ∀ (outerFuel : ℕ) (cache : Cache) (cands : DocSet)
    (mana : ℕ), CacheOK store words cands cache →
    (mdfsRun store words maxMana innerFuel outerFuel cache cands mana).calls =
      (mdfsRun_nc store words maxMana innerFuel outerFuel cands mana).calls ∧
    (mdfsRun store words maxMana innerFuel outerFuel cache cands mana).res =
      (mdfsRun_nc store words maxMana innerFuel outerFuel cands mana).res ∧
    (mdfsRun store words maxMana innerFuel outerFuel cache cands mana).candidates =
      (mdfsRun_nc store words maxMana innerFuel outerFuel cands mana).candidates ∧
    (mdfsRun store words maxMana innerFuel outerFuel cache cands mana).mana =
      (mdfsRun_nc store words maxMana innerFuel outerFuel cands mana).mana ∧
    (mdfsRun store words maxMana innerFuel outerFuel cache cands mana).tailEvents =
      (mdfsRun_nc store words maxMana innerFuel outerFuel cands mana).tailEvents := by
  intro outerFuel
  induction outerFuel with
  | zero =>
    intro cache cands mana hcache
    rw [mdfsRun, mdfsRun_nc]
    exact ⟨rfl, rfl, rfl, rfl, rfl⟩
  | succ fo ih =>
    intro cache cands mana hcache
    obtain ⟨k1, k2, k3, k4, k5⟩ := mdfsNext_cache_equiv store words maxMana innerFuel
      cache cands mana hcache
    rw [mdfsRun, mdfsRun_nc]
    rw [← k1]
    cases hres : (mdfsNext store words maxMana innerFuel cache cands mana).res with
    | batch b =>
      dsimp only
      rw [k2, k3, k4]
      rw [k2] at k5
      obtain ⟨j1, j2, j3, j4, j5⟩ := ih (mdfsNext store words maxMana innerFuel cache cands mana).cache
        (mdfsNextNc store words maxMana innerFuel cands mana).candidates
        (mdfsNextNc store words maxMana innerFuel cands mana).mana k5
      exact ⟨by rw [j1], j2, j3, j4, j5⟩
    | fail e => exact ⟨rfl, rfl, k2, k3, k4⟩
    | exhausted => exact ⟨rfl, rfl, k2, k3, k4⟩
    | outOfFuel => exact ⟨rfl, rfl, k2, k3, k4⟩

/-- **C10**: the memoization cache never changes observable results.  A
whole run of a freshly constructed iterator yields exactly the batch
sequence (indeed, identical calls, result, final candidates, final mana and
event logs) of the variant that recomputes the per-pair document set fresh
on every visit instead of consulting `union_cache`: for proximity < 8
because the cached union depends only on the pruned pairs and the store,
and for proximity 8 because the cached snapshot of an earlier candidate set
is a superset of the parent set it is intersected with. -/
theorem claim_C10 {ε : Type} (store : Store ε) (words : List Slot) (cands : DocSet)
    (innerFuel outerFuel : ℕ) :
    (mdfsRunNew store words cands innerFuel outerFuel).batches =
      (mdfsRunNew_nc store words cands innerFuel outerFuel).calls.map CallInfo.batch ∧
    (mdfsRunNew store words cands innerFuel outerFuel).calls =
      (mdfsRunNew_nc store words cands innerFuel outerFuel).calls ∧
    (mdfsRunNew store words cands innerFuel outerFuel).res =
      (mdfsRunNew_nc store words cands innerFuel outerFuel).res ∧
    (mdfsRunNew store words cands innerFuel outerFuel).candidates =
      (mdfsRunNew_nc store words cands innerFuel outerFuel).candidates ∧
    (mdfsRunNew store words cands innerFuel outerFuel).mana =
      (mdfsRunNew_nc store words cands innerFuel outerFuel).mana ∧
    (mdfsRunNew store words cands innerFuel outerFuel).tailEvents =
      (mdfsRunNew_nc store words cands innerFuel outerFuel).tailEvents := by
  obtain ⟨h1, h2, h3, h4, h5⟩ := mdfsRun_cache_equiv store words (mdfsMaxMana words)
    innerFuel outerFuel [] cands (mdfsInitMana words)
    (fun entry h => absurd h (List.not_mem_nil entry))
  exact ⟨by rw [RunOut.batches, mdfsRunNew, mdfsRunNew_nc, h1], h1, h2, h3, h4, h5⟩
